import Mathlib

/-!
Shallow embedding of `mlp.py` (feedback-alignment MLP trainer) and proofs
about it.  Matrices are row-major lists of rows over `ℚ`; the numpy
externals that are not rational-valued (`np.linalg.inv`, `np.sqrt`,
`np.exp`, `np.log`, `np.tanh`) and the random-number stream
(`np.random.randn`) are parameters bundled in an `NumEnv` record, so every
theorem below holds for every interpretation of those externals.
-/

/-- A numpy 2-d array, as a row-major list of rows of rationals. -/
abbrev Mat := List (List ℚ)

/-- Number of rows (`a.shape[0]`). -/
def rowsOf (a : Mat) : Nat := a.length

/-- Number of columns (`a.shape[1]`), read off the first row. -/
def colsOf (a : Mat) : Nat := (a.headD []).length

/-- The matrix `a` is a well-formed `m × n` array (rectangular). -/
def Rect (a : Mat) (m n : Nat) : Prop :=
  a.length = m ∧ ∀ r ∈ a, r.length = n

instance (a : Mat) (m n : Nat) : Decidable (Rect a m n) := by
  unfold Rect; infer_instance

/-- Elementwise map over a matrix. -/
def matMap (f : ℚ → ℚ) (a : Mat) : Mat := a.map (List.map f)

/-- Elementwise combination of two matrices of the same shape. -/
def matZipWith (f : ℚ → ℚ → ℚ) (a b : Mat) : Mat :=
  List.zipWith (List.zipWith f) a b

/-- Elementwise (Hadamard) product `a * b` of numpy arrays. -/
def hadamard (a b : Mat) : Mat := matZipWith (· * ·) a b

/-- Elementwise sum `a + b` of numpy arrays. -/
def matAdd (a b : Mat) : Mat := matZipWith (· + ·) a b

/-- Elementwise difference `a - b` of numpy arrays. -/
def matSub (a b : Mat) : Mat := matZipWith (· - ·) a b

/-- Scalar multiple `c * a` of a numpy array. -/
def matScale (c : ℚ) (a : Mat) : Mat := matMap (c * ·) a

/-- Matrix transpose `a.T`. -/
def transpose (a : Mat) : Mat :=
  (List.range (colsOf a)).map (fun j => a.map (fun r => r.getD j 0))

/-- Dot product of two equal-length vectors. -/
def dotProd (u v : List ℚ) : ℚ := (List.zipWith (· * ·) u v).sum

/-- Matrix product (the value `np.dot` computes on conforming shapes). -/
def matmul (a b : Mat) : Mat :=
  a.map (fun r => (List.range (colsOf b)).map
    (fun k => dotProd r (b.map (fun br => br.getD k 0))))

/-- Sum of all entries, `a.sum()`. -/
def matSum (a : Mat) : ℚ := (a.map List.sum).sum

/-- Identity matrix `np.eye n`. -/
def eye (n : Nat) : Mat :=
  (List.range n).map (fun i => (List.range n).map
    (fun j => if i = j then (1 : ℚ) else 0))

/-- Errors raised by the Python code, by exception class. -/
inductive PyErr where
  | runtimeError
  | keyError
  | assertionError
  | valueError
  | nameError
  | keyboardInterrupt
deriving DecidableEq, Repr

/-- Checked `np.dot`: numpy raises a `ValueError` inside the numeric code
when the inner dimensions do not conform. -/
def npDot (a b : Mat) : Except PyErr Mat :=
  if colsOf a = b.length then .ok (matmul a b) else .error .valueError

/-- External, non-rational numpy functions and the random stream, left
abstract: every theorem holds for every interpretation of these. -/
structure NumEnv where
  inv : Mat → Mat
  sqrt : ℚ → ℚ
  exp : ℚ → ℚ
  log : ℚ → ℚ
  tanh : ℚ → ℚ
  rng : Nat → ℚ

/-- The external `np.linalg.inv` returns a matrix of the same shape as its
(square) argument; theorems that need output shapes assume this. -/
def InvShapePreserving (E : NumEnv) : Prop :=
  ∀ a m n, Rect a m n → Rect (E.inv a) m n

/-- A fresh `np.random.randn(r, c)` draw, reading `r*c` consecutive values
of the stream starting at position `idx`. -/
def randnMat (g : Nat → ℚ) (idx r c : Nat) : Mat :=
  (List.range r).map (fun i => (List.range c).map (fun j => g (idx + i * c + j)))

/-- Population variance `np.var` of all entries of a matrix. -/
def npVar (a : Mat) : ℚ :=
  let xs := a.flatten
  let n : ℚ := xs.length
  let m := xs.sum / n
  (xs.map (fun v => (v - m) ^ 2)).sum / n

/-- Source `normalize_xavier(x, n) = x / (np.var(x) * n)`. -/
def normalize_xavier (x : Mat) (n : ℚ) : Mat :=
  matMap (fun v => v / (npVar x * n)) x

/-- Source `add_bias`: append a constant-ones column. -/
def add_bias (x : Mat) : Mat := x.map (fun r => r ++ [(1 : ℚ)])

/-- The non-bias portion `w[:, :-1]` of a weight matrix. -/
def dropLastCol (w : Mat) : Mat := w.map List.dropLast

/-- In-place `w[:, :-1] *= 0` of the FA branch: zero every entry of each
row except the last (bias) one. -/
def zeroNonBias (w : Mat) : Mat :=
  w.map (fun r => (r.dropLast.map (fun _ => (0 : ℚ))) ++ r.drop (r.length - 1))

/-- Source `pseudo_inverse`, with `np.linalg.inv` modelled by `E.inv`.
The two `np.dot` calls inside always conform for rectangular input, so the
unchecked product is used here. -/
def pseudo_inverse (E : NumEnv) (w : Mat) : Mat :=
  let eps : ℚ := 1 / 1000
  if w.length ≤ colsOf w then
    matmul (transpose w) (E.inv (matAdd (matmul w (transpose w)) (matScale eps (eye w.length))))
  else
    matmul (E.inv (matAdd (matmul (transpose w) w) (matScale eps (eye (colsOf w))))) (transpose w)

/-- Written from the spec's words (section 4.1), for comparison with the
source definition: "if `m ≤ n`: `B = Wᵗ · (W·Wᵗ + εI_m)⁻¹` else
`B = (Wᵗ·W + εI_n)⁻¹ · Wᵗ`", with ridge constant `ε = 1e-3`. -/
def pseudoInverseSpec (E : NumEnv) (m n : Nat) (w : Mat) : Mat :=
  if m ≤ n then
    matmul (transpose w) (E.inv (matAdd (matmul w (transpose w)) (matScale (1 / 1000) (eye m))))
  else
    matmul (E.inv (matAdd (matmul (transpose w) w) (matScale (1 / 1000) (eye n)))) (transpose w)

/-- The keys of `activation_funcs`. -/
inductive ActTag where
  | sigmoid
  | tanh
  | relu
  | identity
deriving DecidableEq, Repr

/-- The keys of `loss_funcs`. -/
inductive LossTag where
  | mse
  | softmax_cross_entropy
deriving DecidableEq, Repr

/-- Lookup in the `activation_funcs` dictionary. -/
def actLookup (s : String) : Option ActTag :=
  if s = "sigmoid" then some .sigmoid
  else if s = "tanh" then some .tanh
  else if s = "relu" then some .relu
  else if s = "identity" then some .identity
  else none

/-- Lookup in the `loss_funcs` dictionary. -/
def lossLookup (s : String) : Option LossTag :=
  if s = "mse" then some .mse
  else if s = "softmax_cross_entropy" then some .softmax_cross_entropy
  else none

/-- The forward activation functions (`sigmoid`, `tanh`, `relu`,
`identity` of the source), elementwise on scalars. -/
def actF (E : NumEnv) : ActTag → ℚ → ℚ
  | .sigmoid => fun y => 1 / (1 + E.exp (-y))
  | .tanh => E.tanh
  | .relu => fun y => max 0 y
  | .identity => fun y => y

/-- The derivative-of-output functions (`dsigmoid`, `dtanh`, `drelu`,
`didentity`); `didentity` returns the scalar `1.0`, which broadcasts, so it
is the constant-one function elementwise. -/
def dAct : ActTag → ℚ → ℚ
  | .sigmoid => fun z => z * (1 - z)
  | .tanh => fun z => 1 - z ^ 2
  | .relu => fun z => if 0 < z then 1 else 0
  | .identity => fun _ => 1

/-- Row-wise `softmax(y)`. -/
def softmax (E : NumEnv) (y : Mat) : Mat :=
  y.map (fun r =>
    let er := r.map E.exp
    let s := er.sum
    er.map (· / s))

/-- Source `mse_loss`. -/
def mse_loss (p t : Mat) : Mat :=
  matZipWith (fun a b => (1 / 2) * (a - b) ^ 2) p t

/-- Source `mse_loss_prime`. -/
def mse_loss_prime (p t : Mat) : Mat := matSub p t

/-- Source `softmax_cross_entropy_loss` (per-row sums, `axis=1`). -/
def softmax_cross_entropy_loss (E : NumEnv) (p t : Mat) : List ℚ :=
  List.zipWith
    (fun pr tr =>
      (List.zipWith (fun pv tv => -tv * E.log pv - (1 - tv) * E.log (1 - pv)) pr tr).sum)
    (softmax E p) t

/-- Source `softmax_cross_entropy_loss_prime`. -/
def softmax_cross_entropy_loss_prime (E : NumEnv) (p t : Mat) : Mat :=
  matSub (softmax E p) t

/-- The value of `self.loss[0](p, t).sum()` in `fit`. -/
def lossSum (E : NumEnv) : LossTag → Mat → Mat → ℚ
  | .mse, p, t => matSum (mse_loss p t)
  | .softmax_cross_entropy, p, t => (softmax_cross_entropy_loss E p t).sum

/-- The value of `self.loss[1](p, t)` in `fit`. -/
def lossPrime (E : NumEnv) : LossTag → Mat → Mat → Mat
  | .mse, p, t => mse_loss_prime p t
  | .softmax_cross_entropy, p, t => softmax_cross_entropy_loss_prime E p t

/-- The state owned by an `MLP` instance (the activations cache is passed
explicitly between `forward` and `backward` instead). -/
structure MLPState where
  backward_weights : List Mat
  weights : List Mat
  updateable : List Bool
  funcs : List ActTag
  loss : LossTag
  learning : String
deriving DecidableEq, Repr

/-- One iteration of the constructor loop: draw and rescale the weight
matrix, then apply the mode-specific branch.  Returns the weight matrix,
the optional feedback matrix, and the advanced random-stream position.
(The `if False:` block of the source is dead code and is omitted.) -/
def mkLayer (E : NumEnv) (learning : String) (ch_in ch_out idx : Nat) :
    Except PyErr (Mat × Option Mat × Nat) :=
  let w0 := randnMat E.rng idx ch_out (ch_in + 1)
  let idx1 := idx + ch_out * (ch_in + 1)
  let w := normalize_xavier w0 (E.sqrt ((ch_out : ℚ) + (ch_in : ℚ)))
  if learning = "BP" then .ok (w, none, idx1)
  else if learning = "PI" then .ok (w, none, idx1)
  else if learning = "FA" then
    let w' := zeroNonBias w
    let b0 := randnMat E.rng idx1 ch_out ch_in
    .ok (w', some (normalize_xavier b0 (ch_out : ℚ)), idx1 + ch_out * ch_in)
  else if learning = "FA-PI-W" then
    .ok (w, some (normalize_xavier (transpose (pseudo_inverse E (dropLastCol w))) (ch_out : ℚ)), idx1)
  else if learning = "FA-PI-B" then
    let b0 := randnMat E.rng idx1 ch_out ch_in
    let b := normalize_xavier b0 (ch_out : ℚ)
    let w2 := add_bias (normalize_xavier (transpose (pseudo_inverse E b)) (ch_in : ℚ))
    .ok (w2, some b, idx1 + ch_out * ch_in)
  else .error .runtimeError

/-- A Python dictionary lookup `d[key]`: a missing key raises the given
error (a `KeyError`). -/
def pyLookup {α : Type _} (o : Option α) (e : PyErr) : Except PyErr α :=
  match o with
  | some v => .ok v
  | none => .error e

theorem pyLookup_some {α : Type _} (v : α) (e : PyErr) :
    pyLookup (some v) e = .ok v := rfl

theorem pyLookup_none {α : Type _} (e : PyErr) :
    pyLookup (none : Option α) e = .error e := rfl

/-- The constructor loop over the layer specs, threading the fan-in and the
random stream.  A `RuntimeError` (unknown mode) of layer `i` precedes the
activation lookup (`KeyError`) of layer `i`, which precedes everything of
layer `i+1`, exactly as in the source. -/
def buildLayers (E : NumEnv) (learning : String) :
    Nat → Nat → List (Nat × String × Bool) →
    Except PyErr (List Mat × List Mat × List Bool × List ActTag × Nat)
  | _, idx, [] => .ok ([], [], [], [], idx)
  | ch_in, idx, (ch_out, activation_type, is_updatable) :: rest => do
    let (w, bOpt, idx1) ← mkLayer E learning ch_in ch_out idx
    let f ← pyLookup (actLookup activation_type) PyErr.keyError
    let (ws, bs, us, fs, idx2) ← buildLayers E learning ch_out idx1 rest
    .ok (w :: ws, (match bOpt with | some b => b :: bs | none => bs),
         is_updatable :: us, f :: fs, idx2)

/-- Source `MLP.__init__`: build all layers, then look up the loss.
Returns the constructed state and the advanced random-stream position. -/
def mkMLP (E : NumEnv) (input_dim : Nat) (layers : List (Nat × String × Bool))
    (loss_type learning : String) (idx : Nat) : Except PyErr (MLPState × Nat) := do
  let (ws, bs, us, fs, idx') ← buildLayers E learning input_dim idx layers
  let lt ← pyLookup (lossLookup loss_type) PyErr.keyError
  .ok ({ backward_weights := bs, weights := ws, updateable := us,
         funcs := fs, loss := lt, learning := learning }, idx')

/-- Rows of `xs` selected by a list of indices (`xs[batchidx]`). -/
def selectRows (xs : Mat) (idxs : List Nat) : Mat :=
  idxs.map (fun j => xs.getD j [])

/-- First index of the per-row maximum, `np.argmax` on one row. -/
def rowArgmax (r : List ℚ) : Nat :=
  (r.foldl
    (fun (acc : Nat × ℚ × Nat) v =>
      if acc.2.1 < v then (acc.2.2, v, acc.2.2 + 1) else (acc.1, acc.2.1, acc.2.2 + 1))
    (0, r.headD 0, 0)).1

/-- Value of `np.count_nonzero(a.argmax(axis=1) == b.argmax(axis=1))`. -/
def countMatches (a b : Mat) : Nat :=
  (List.zipWith (fun r s => decide (rowArgmax r = rowArgmax s)) a b).count true

/-- The loop body of `MLP.forward`: thread the growing activations cache
and the last computed output `z` (a run over zero layers leaves the
Python local `z` unbound, a `NameError`). -/
def MLP.forwardGo (E : NumEnv) :
    List (Mat × ActTag) → List Mat → Option Mat → Except PyErr (List Mat × Mat)
  | [], _, none => .error .nameError
  | [], acts, some z => .ok (acts, z)
  | (w, f) :: rest, acts, _ => do
    let x := add_bias (acts.getLastD [])
    let y ← npDot x (transpose w)
    let z := matMap (actF E f) y
    MLP.forwardGo E rest (acts ++ [z]) (some z)

/-- Source `MLP.forward`: returns the activations cache (input first, then
one entry per layer) and the final output.  The source's
`assert len(xs_batch.shape) == 2` is enforced by the `Mat` type itself. -/
def MLP.forward (E : NumEnv) (st : MLPState) (xs_batch : Mat) :
    Except PyErr (List Mat × Mat) :=
  MLP.forwardGo E (st.weights.zip st.funcs) [xs_batch] none

/-- The transport matrix chosen for layer `i` in `MLP.backward`.  The
source's final branch tests membership in `['FA', 'FA-PI-W', 'FA-PI-B']`;
for any constructed model the learning mode is one of the five known
names, so the residual case coincides with that membership test. -/
def transportFor (E : NumEnv) (st : MLPState) (i : Nat) (w : Mat) : Mat :=
  if st.learning = "BP" then dropLastCol w
  else if st.learning = "PI" then transpose (pseudo_inverse E (dropLastCol w))
  else st.backward_weights.getD i []

/-- The delta-propagation loop of `MLP.backward`, traversing
`enumerate(zip(weights, funcs))` in reverse; the accumulator holds the
deltas most-recent first, so the final accumulator equals the source's
`deltas` after its `deltas.reverse()`. -/
def bdGo (E : NumEnv) (st : MLPState) (acts : List Mat) :
    List (Nat × (Mat × ActTag)) → List Mat → Except PyErr (List Mat)
  | [], deltas => .ok deltas
  | (i, (w, f)) :: rest, deltas => do
    let p ← npDot (deltas.headD []) (transportFor E st i w)
    bdGo E st acts rest (hadamard (matMap (dAct f) (acts.getD i [])) p :: deltas)

/-- All propagated deltas of one backward call, first-layer delta first and
the incoming output delta last. -/
def backwardDeltas (E : NumEnv) (st : MLPState) (acts : List Mat) (delta : Mat) :
    Except PyErr (List Mat) :=
  bdGo E st acts ((st.weights.zip st.funcs).enum).reverse [delta]

/-- The update loop of `MLP.backward` over `enumerate(deltas[1:])`:
non-updatable layers are skipped; gradient noise consumes fresh values of
the random stream. -/
def updGo (E : NumEnv) (eta gnoise : ℚ) (acts : List Mat) :
    List (Nat × Mat) → MLPState → Nat → Except PyErr (MLPState × Nat)
  | [], st, idx => .ok (st, idx)
  | (i, d) :: rest, st, idx =>
    if st.updateable.getD i true = false then updGo E eta gnoise acts rest st idx
    else do
      let x := add_bias (acts.getD i [])
      let diff0 ← npDot (transpose d) x
      let diff :=
        if 0 < gnoise then
          matAdd diff0 (matScale gnoise (randnMat E.rng idx (rowsOf diff0) (colsOf diff0)))
        else diff0
      let idx1 := if 0 < gnoise then idx + rowsOf diff0 * colsOf diff0 else idx
      updGo E eta gnoise acts rest
        { st with
          weights := st.weights.set i (matSub (st.weights.getD i []) (matScale eta diff)) }
        idx1

/-- Source `MLP.backward`: propagate the deltas, then update the eligible
weights.  Takes the activations cache of the preceding forward call. -/
def MLP.backward (E : NumEnv) (st : MLPState) (acts : List Mat) (delta : Mat)
    (eta gnoise : ℚ) (idx : Nat) : Except PyErr (MLPState × Nat) := do
  let ds ← backwardDeltas E st acts delta
  updGo E eta gnoise acts (ds.drop 1).enum st idx

/-- Source `MLP.weight_decay`: scale the non-bias columns of every weight
matrix (updatable or not) by `decay`; the last (bias) column is kept. -/
def MLP.weight_decay (st : MLPState) (decay : ℚ) : MLPState :=
  { st with
    weights := st.weights.map (fun w =>
      w.map (fun r => r.dropLast.map (· * decay) ++ r.drop (r.length - 1))) }

/-- One structured record of the fit log. -/
structure LogEntry where
  n : Nat
  loss : ℚ
  acc : ℚ
  type : String
deriving DecidableEq, Repr

/-- The per-epoch running accumulators `loss, acc, accum_batch_samples`. -/
structure Accum where
  loss : ℚ
  acc : ℚ
  samples : Nat
deriving DecidableEq, Repr

/-- The mutable state threaded through the training loop: the model, the
random-stream position, `total_samples`, the log, and the count of
batch boundaries passed so far (where interrupts are polled). -/
structure FitState where
  st : MLPState
  rngIdx : Nat
  totalSamples : Nat
  log : List LogEntry
  tick : Nat
deriving DecidableEq, Repr

/-- The per-call constants of one `fit` invocation. -/
structure TrainCfg where
  xs : Mat
  ys : Mat
  validation : Option (Mat × Mat)
  bs : Nat
  lr : ℚ
  gn : ℚ
  wd : ℚ

/-- Result of a region of the training loop: normal value, a pending
`KeyboardInterrupt` carrying the state at the batch boundary where it
fired, or another propagating exception. -/
inductive StepRes (α : Type) where
  | ok : α → StepRes α
  | intr : FitState → StepRes α
  | err : PyErr → StepRes α
deriving DecidableEq

/-- The `i` values of `range(0, N, batchsize)`. -/
def batchStarts (N bs : Nat) : List Nat :=
  (List.range ((N + bs - 1) / bs)).map (· * bs)

/-- `batchidx = range(i, min(N, i + batchsize))`. -/
def batchIdxList (N bs i : Nat) : List Nat :=
  List.range' i (min (N - i) bs)

/-- All batch index lists of one pass over `N` samples. -/
def batchLists (N bs : Nat) : List (List Nat) :=
  (batchStarts N bs).map (batchIdxList N bs)

/-- One training mini-batch: forward, loss gradient scaled by the inverse
batch length, loss/accuracy accumulation, the `train-intermediate` log
record, backward, and the optional weight decay with exponent
`len(batchidx)`. -/
def trainBatchStep (E : NumEnv) (cfg : TrainCfg) (fs : FitState) (a : Accum)
    (bidx : List Nat) : Except PyErr (FitState × Accum) := do
  let xb := selectRows cfg.xs bidx
  let yb := selectRows cfg.ys bidx
  let (acts, ps) ← MLP.forward E fs.st xb
  let delta := matMap (fun v => v / (bidx.length : ℚ)) (lossPrime E fs.st.loss ps yb)
  let loss1 := a.loss + lossSum E fs.st.loss ps yb
  let acc1 := a.acc + (countMatches yb ps : ℚ)
  let n1 := a.samples + bidx.length
  let entry : LogEntry :=
    ⟨fs.totalSamples + n1, loss1 / (n1 : ℚ), acc1 / (n1 : ℚ), "train-intermediate"⟩
  let (st1, idx1) ← MLP.backward E fs.st acts delta cfg.lr cfg.gn fs.rngIdx
  let st2 := if 0 < cfg.wd then MLP.weight_decay st1 ((1 - cfg.wd) ^ bidx.length) else st1
  .ok ({ fs with st := st2, rngIdx := idx1, log := fs.log ++ [entry] }, ⟨loss1, acc1, n1⟩)

/-- The inner loop over training batches.  A `KeyboardInterrupt` is a
cooperative signal polled at each batch boundary (spec section 5); when
the schedule fires, control jumps to the handler with the state as of
that boundary. -/
def trainLoop (E : NumEnv) (sched : Nat → Bool) (cfg : TrainCfg) :
    List (List Nat) → FitState → Accum → StepRes (FitState × Accum)
  | [], fs, a => .ok (fs, a)
  | b :: rest, fs, a =>
    if sched fs.tick then .intr fs
    else
      match trainBatchStep E cfg { fs with tick := fs.tick + 1 } a b with
      | .error e => .err e
      | .ok (fs', a') => trainLoop E sched cfg rest fs' a'

/-- One validation mini-batch: forward only, accumulate loss and correct
count. -/
def validBatchStep (E : NumEnv) (st : MLPState) (xv yv : Mat) (la : ℚ × ℚ)
    (bidx : List Nat) : Except PyErr (ℚ × ℚ) := do
  let xb := selectRows xv bidx
  let yb := selectRows yv bidx
  let (_, ps) ← MLP.forward E st xb
  .ok (la.1 + lossSum E st.loss ps yb, la.2 + (countMatches yb ps : ℚ))

/-- The loop over validation batches. -/
def validLoop (E : NumEnv) (st : MLPState) (xv yv : Mat) :
    List (List Nat) → (ℚ × ℚ) → Except PyErr (ℚ × ℚ)
  | [], la => .ok la
  | b :: rest, la =>
    match validBatchStep E st xv yv la b with
    | .error e => .error e
    | .ok la' => validLoop E st xv yv rest la'

/-- One epoch of `fit`: the loop over training batches, the epoch-level
`train` record, then (if a nonempty validation set was supplied) the
validation pass and its record.  `range(0, N, batchsize)` raises a
`ValueError` when the step is zero, checked at each epoch's batch loop as
in the source. -/
def epochBody (E : NumEnv) (sched : Nat → Bool) (cfg : TrainCfg)
    (fs : FitState) : StepRes FitState :=
  if cfg.bs = 0 then .err .valueError
  else
    match trainLoop E sched cfg (batchLists cfg.ys.length cfg.bs) fs ⟨0, 0, 0⟩ with
    | .intr s => .intr s
    | .err e => .err e
    | .ok (fs1, a) =>
      let N : ℚ := (cfg.ys.length : ℚ)
      let ts := fs1.totalSamples + cfg.ys.length
      let fs2 : FitState :=
        { fs1 with totalSamples := ts, log := fs1.log ++ [⟨ts, a.loss / N, a.acc / N, "train"⟩] }
      match cfg.validation with
      | some (xv, yv) =>
        if 0 < yv.length then
          match validLoop E fs2.st xv yv (batchLists yv.length cfg.bs) (0, 0) with
          | .error e => .err e
          | .ok (vl, va) =>
            let M : ℚ := (yv.length : ℚ)
            .ok { fs2 with log := fs2.log ++ [⟨ts, vl / M, va / M, "validation"⟩] }
        else .ok fs2
      | none => .ok fs2

/-- The epoch loop of `fit`: iterate `epochBody` over the epoch indices,
propagating interrupts and exceptions. -/
def epochLoop (E : NumEnv) (sched : Nat → Bool) (cfg : TrainCfg) :
    List Nat → FitState → StepRes FitState
  | [], fs => .ok fs
  | _ :: rest, fs =>
    match epochBody E sched cfg fs with
    | .ok fs3 => epochLoop E sched cfg rest fs3
    | .intr s => .intr s
    | .err e => .err e

/-- The tail of `fit` after the eager assertions: run the epochs inside
the `try`.  On a `KeyboardInterrupt`, `raw_input('terminate?')` decides:
answering yes re-raises the exception (so `self.fit_log` is never
assigned); anything else falls through to `self.fit_log = ...`, which
here is returning the accumulated log.  The epoch loop never resumes. -/
def MLP.fitGo (E : NumEnv) (sched : Nat → Bool) (answerYes : Bool) (cfg : TrainCfg)
    (n_epoch : Nat) (st : MLPState) (rngIdx : Nat) :
    Except PyErr (MLPState × List LogEntry × Nat) :=
  match epochLoop E sched cfg (List.range n_epoch) ⟨st, rngIdx, 0, [], 0⟩ with
  | .err e => .error e
  | .ok fs => .ok (fs.st, fs.log, fs.rngIdx)
  | .intr fs =>
    if answerYes then .error .keyboardInterrupt else .ok (fs.st, fs.log, fs.rngIdx)

/-- Source `MLP.fit`.  The leading assertions (row counts agree; the
train/validation widths agree) are the only eager shape checks; the input
width is never compared with the model's expected input dimension.
Returns the final model state, the fit log, and the advanced
random-stream position. -/
def MLP.fit (E : NumEnv) (sched : Nat → Bool) (answerYes : Bool)
    (st : MLPState) (rngIdx : Nat) (xs_train ys_train : Mat)
    (validation : Option (Mat × Mat)) (batchsize n_epoch : Nat)
    (learning_rate gradient_noise wd : ℚ) :
    Except PyErr (MLPState × List LogEntry × Nat) :=
  if xs_train.length ≠ ys_train.length then .error .assertionError
  else
    match validation with
    | some (xv, yv) =>
      if xv.length ≠ yv.length then .error .assertionError
      else if colsOf xs_train ≠ colsOf xv then .error .assertionError
      else
        MLP.fitGo E sched answerYes
          ⟨xs_train, ys_train, validation, batchsize, learning_rate, gradient_noise, wd⟩
          n_epoch st rngIdx
    | none =>
      MLP.fitGo E sched answerYes
        ⟨xs_train, ys_train, none, batchsize, learning_rate, gradient_noise, wd⟩
        n_epoch st rngIdx

/-- Source `MLP.predict`: forward over batches of rows, concatenated with
`np.vstack` (which raises a `ValueError` on an empty list of arrays). -/
def MLP.predict (E : NumEnv) (st : MLPState) (xs_test : Mat) (batchsize : Nat) :
    Except PyErr Mat :=
  if batchsize = 0 then .error .valueError
  else
    match (batchLists xs_test.length batchsize).mapM
        (fun bidx => (MLP.forward E st (selectRows xs_test bidx)).map (·.2)) with
    | .error e => .error e
    | .ok zs => if zs.isEmpty then .error .valueError else .ok zs.flatten

/-- A schedule on which no interrupt ever fires: the uninterrupted run. -/
def noInterrupt : Nat → Bool := fun _ => false

/-- Parameters of one `fit` call, for iterating several calls. -/
structure FitArgs where
  xs : Mat
  ys : Mat
  validation : Option (Mat × Mat)
  bs : Nat
  ne : Nat
  lr : ℚ
  gn : ℚ
  wd : ℚ

/-- Iterate `fit` over a list of call parameters (threading model state
and random stream), to speak about "any number of fit calls". -/
def fitMany (E : NumEnv) (sched : Nat → Bool) (answerYes : Bool) :
    List FitArgs → MLPState → Nat → Except PyErr (MLPState × Nat)
  | [], st, idx => .ok (st, idx)
  | p :: rest, st, idx => do
    let (st', _, idx') ←
      MLP.fit E sched answerYes st idx p.xs p.ys p.validation p.bs p.ne p.lr p.gn p.wd
    fitMany E sched answerYes rest st' idx'

/-! ### Concrete fixtures used by witnesses and counterexamples -/

/-- A concrete interpretation of the external numpy functions and the
random stream, for evaluating the embedding on closed inputs. -/
def E0 : NumEnv :=
  { inv := id, sqrt := id, exp := fun _ => 1, log := fun _ => 0,
    tanh := id, rng := fun n => (n + 1 : ℚ) }

/-- The model `mkMLP E0 1 [(1, "identity", true)] "mse" "BP" 0` yields
(weights drawn from the stream 1, 2, then xavier-rescaled to `[[2, 4]]`). -/
def stBP0 : MLPState :=
  { backward_weights := [], weights := [[[2, 4]]], updateable := [true],
    funcs := [.identity], loss := .mse, learning := "BP" }

/-- Like `stBP0` but with the single layer frozen (`is_updatable = 0`). -/
def stF0 : MLPState :=
  { backward_weights := [], weights := [[[2, 4]]], updateable := [false],
    funcs := [.identity], loss := .mse, learning := "BP" }

/-- A schedule whose interrupt fires at the very first batch boundary. -/
def sched0 : Nat → Bool := fun t => t = 0

/-! ### Generic list helpers -/

theorem getD_append_lt {α : Type _} (l l' : List α) (i : Nat) (d : α)
    (h : i < l.length) : (l ++ l').getD i d = l.getD i d := by
  induction l generalizing i with
  | nil => simp at h
  | cons a t ih =>
    cases i with
    | zero => rfl
    | succ n =>
      simp only [List.cons_append, List.getD_cons_succ]
      exact ih n (by simpa using h)

theorem getD_append_len {α : Type _} (l : List α) (x d : α) :
    (l ++ [x]).getD l.length d = x := by
  induction l with
  | nil => rfl
  | cons a t ih =>
    simp only [List.cons_append, List.length_cons, List.getD_cons_succ]
    exact ih

theorem getD_zip_pair (a : List Mat) (b : List ActTag) (j : Nat)
    (h : j < (a.zip b).length) :
    (a.zip b).getD j ([], .identity) = (a.getD j [], b.getD j .identity) := by
  induction a generalizing b j with
  | nil => simp at h
  | cons x xs ih =>
    cases b with
    | nil => simp at h
    | cons y ys =>
      cases j with
      | zero => rfl
      | succ n =>
        simp only [List.zip_cons_cons, List.getD_cons_succ]
        exact ih ys n (by simpa [List.zip_cons_cons] using h)

theorem enum_snoc_reverse {α : Type _} (l : List α) (x : α) :
    ((l ++ [x]).enum).reverse = (l.length, x) :: l.enum.reverse := by
  rw [List.enum_eq_zip_range, List.enum_eq_zip_range]
  have h1 : (l ++ [x]).length = l.length + 1 := by simp
  rw [h1]
  have h2 : List.range (l.length + 1) = List.range l.length ++ [l.length] :=
    List.range_succ l.length
  rw [h2, List.zip_append (by simp)]
  simp

theorem except_bind_error {ε α β : Type _} (e : ε) (f : α → Except ε β) :
    ((Except.error e : Except ε α) >>= f) = Except.error e := rfl

theorem except_bind_ok {ε α β : Type _} (v : α) (f : α → Except ε β) :
    ((Except.ok v : Except ε α) >>= f) = f v := rfl

/-! ### The backward delta recurrence (claim C1) -/

theorem bdGo_append_tail (E : NumEnv) (st : MLPState) (acts : List Mat) :
    ∀ (pairs : List (Nat × (Mat × ActTag))) (d : Mat) (ds : List Mat),
      bdGo E st acts pairs (d :: ds) =
        Except.map (fun l => l ++ ds) (bdGo E st acts pairs [d]) := by
  intro pairs
  induction pairs with
  | nil => intro d ds; rfl
  | cons p rest ih =>
    intro d ds
    obtain ⟨i, w, f⟩ := p
    simp only [bdGo, List.headD_cons]
    cases hnp : npDot d (transportFor E st i w) with
    | error e => rfl
    | ok q =>
      simp only [except_bind_ok]
      rw [ih, ih (hadamard (matMap (dAct f) (acts.getD i [])) q) [d]]
      cases bdGo E st acts rest [hadamard (matMap (dAct f) (acts.getD i [])) q] with
      | error e => rfl
      | ok l => simp [Except.map]

theorem bdGo_rev_spec (E : NumEnv) (st : MLPState) (acts : List Mat) :
    ∀ (l : List (Mat × ActTag)) (d : Mat) (ds : List Mat),
      bdGo E st acts (l.enum.reverse) [d] = .ok ds →
      ds.length = l.length + 1 ∧ ds.getD l.length [] = d ∧
      ∀ j, j < l.length →
        ds.getD j [] =
          hadamard (matMap (dAct (l.getD j ([], .identity)).2) (acts.getD j []))
            (matmul (ds.getD (j + 1) [])
              (transportFor E st j (l.getD j ([], .identity)).1)) := by
  intro l
  induction l using List.reverseRecOn with
  | nil =>
    intro d ds h
    simp only [List.enum_nil, List.reverse_nil, bdGo] at h
    injection h with h
    subst h
    refine ⟨rfl, rfl, ?_⟩
    intro j hj
    exact absurd hj (by simp)
  | append_singleton l x ih =>
    intro d ds h
    rw [enum_snoc_reverse] at h
    simp only [bdGo, List.headD_cons] at h
    cases hnp : npDot d (transportFor E st l.length x.1) with
    | error e =>
      rw [hnp, except_bind_error] at h
      exact absurd h (by simp)
    | ok q =>
      rw [hnp, except_bind_ok] at h
      rw [bdGo_append_tail] at h
      cases hrec : bdGo E st acts l.enum.reverse
          [hadamard (matMap (dAct x.2) (acts.getD l.length [])) q] with
      | error e =>
        rw [hrec] at h
        exact absurd h (by simp [Except.map])
      | ok ds' =>
        rw [hrec] at h
        simp only [Except.map] at h
        injection h with h
        subst h
        obtain ⟨hlen, hlast, hrecur⟩ := ih _ ds' hrec
        have hlx : (l ++ [x]).length = l.length + 1 := by simp
        have hq : matmul d (transportFor E st l.length x.1) = q := by
          unfold npDot at hnp
          by_cases hc : colsOf d = (transportFor E st l.length x.1).length
          · rw [if_pos hc] at hnp; injection hnp
          · rw [if_neg hc] at hnp; cases hnp
        refine ⟨by simp [hlen], ?_, ?_⟩
        · rw [hlx, ← hlen]
          exact getD_append_len ds' d []
        · intro j hj
          rw [hlx] at hj
          rcases Nat.lt_or_ge j l.length with hjl | hje
          · have h1 : (ds' ++ [d]).getD j [] = ds'.getD j [] :=
              getD_append_lt ds' [d] j [] (by omega)
            have h2 : (ds' ++ [d]).getD (j + 1) [] = ds'.getD (j + 1) [] :=
              getD_append_lt ds' [d] (j + 1) [] (by omega)
            have h3 : (l ++ [x]).getD j ([], .identity) = l.getD j ([], .identity) :=
              getD_append_lt l [x] j ([], .identity) hjl
            rw [h1, h2, h3]
            exact hrecur j hjl
          · have hjeq : j = l.length := by omega
            subst hjeq
            have h1 : (l ++ [x]).getD l.length ([], .identity) = x := getD_append_len l x _
            have h2 : (ds' ++ [d]).getD l.length [] = ds'.getD l.length [] :=
              getD_append_lt ds' [d] l.length [] (by omega)
            have h3 : (ds' ++ [d]).getD (l.length + 1) [] = d := by
              rw [← hlen]; exact getD_append_len ds' d []
            rw [h1, h2, h3, hlast, hq]

theorem updGo_preserves_frame (E : NumEnv) (eta gn : ℚ) (acts : List Mat) :
    ∀ (pairs : List (Nat × Mat)) (st : MLPState) (idx : Nat)
      (st' : MLPState) (idx' : Nat),
      updGo E eta gn acts pairs st idx = .ok (st', idx') →
      st'.backward_weights = st.backward_weights ∧
      st'.updateable = st.updateable ∧ st'.funcs = st.funcs ∧
      st'.learning = st.learning ∧ st'.loss = st.loss := by
  intro pairs
  induction pairs with
  | nil =>
    intro st idx st' idx' h
    simp only [updGo] at h
    injection h with h
    injection h with h1 h2
    subst h1
    exact ⟨rfl, rfl, rfl, rfl, rfl⟩
  | cons p rest ih =>
    intro st idx st' idx' h
    obtain ⟨i, dm⟩ := p
    simp only [updGo] at h
    by_cases hup : st.updateable.getD i true = false
    · rw [if_pos hup] at h
      exact ih st idx st' idx' h
    · rw [if_neg hup] at h
      cases hnp : npDot (transpose dm) (add_bias (acts.getD i [])) with
      | error e =>
        rw [hnp, except_bind_error] at h
        exact absurd h (by simp)
      | ok diff0 =>
        rw [hnp, except_bind_ok] at h
        have hres := ih _ _ _ _ h
        exact hres

/-- The result of `MLP.backward E0 stBP0 [[[1]], [[6]]] [[5]] 1 0 2`. -/
def stB1 : MLPState :=
  { backward_weights := [], weights := [[[-3, -1]]], updateable := [true],
    funcs := [.identity], loss := .mse, learning := "BP" }

/-- C1: a backward call propagates the error from the last layer to the
first: the list of deltas it computes has one entry per layer plus the
incoming output delta at the end, and each propagated delta is the
elementwise product of the activation derivative evaluated on that
layer's cached input activation with the matrix product of the next delta
and the mode's transport matrix — the non-bias portion of the layer's own
weights for BP, the transposed regularized pseudoinverse of that portion
recomputed per call for PI, and the stored feedback matrix otherwise
(FA, FA-PI-W, FA-PI-B); moreover the feedback matrices are never updated
by the backward call. -/
theorem claim_C1_backward_transport (E : NumEnv) (st : MLPState)
    (acts : List Mat) (d : Mat) (ds : List Mat) (i : Nat) (eta gn : ℚ)
    (idx : Nat) (st' : MLPState) (idx' : Nat)
    (hds : backwardDeltas E st acts d = .ok ds)
    (hi : i < (st.weights.zip st.funcs).length)
    (hb : MLP.backward E st acts d eta gn idx = .ok (st', idx')) :
    ds.length = (st.weights.zip st.funcs).length + 1 ∧
    ds.getD (st.weights.zip st.funcs).length [] = d ∧
    ds.getD i [] =
      hadamard (matMap (dAct (st.funcs.getD i .identity)) (acts.getD i []))
        (matmul (ds.getD (i + 1) [])
          (if st.learning = "BP" then dropLastCol (st.weights.getD i [])
           else if st.learning = "PI" then
             transpose (pseudo_inverse E (dropLastCol (st.weights.getD i [])))
           else st.backward_weights.getD i [])) ∧
    st'.backward_weights = st.backward_weights := by
  have hspec := bdGo_rev_spec E st acts (st.weights.zip st.funcs) d ds hds
  obtain ⟨hlen, hlast, hrec⟩ := hspec
  have hzip := getD_zip_pair st.weights st.funcs i hi
  have hieq := hrec i hi
  rw [hzip] at hieq
  refine ⟨hlen, hlast, ?_, ?_⟩
  · simpa only [transportFor] using hieq
  · unfold MLP.backward at hb
    rw [hds, except_bind_ok] at hb
    exact (updGo_preserves_frame E eta gn acts _ st idx st' idx' hb).1

/-- Witness for C1 at a concrete one-layer BP model. -/
theorem claim_C1_witness :
    ([[[10]], [[5]]] : List Mat).length = 2 ∧
    ([[[10]], [[5]]] : List Mat).getD 1 [] = [[5]] ∧
    ([[[10]], [[5]]] : List Mat).getD 0 [] =
      hadamard (matMap (dAct (stBP0.funcs.getD 0 .identity))
          (([[[1]], [[6]]] : List Mat).getD 0 []))
        (matmul (([[[10]], [[5]]] : List Mat).getD 1 [])
          (if stBP0.learning = "BP" then dropLastCol (stBP0.weights.getD 0 [])
           else if stBP0.learning = "PI" then
             transpose (pseudo_inverse E0 (dropLastCol (stBP0.weights.getD 0 [])))
           else stBP0.backward_weights.getD 0 [])) ∧
    stB1.backward_weights = stBP0.backward_weights :=
  claim_C1_backward_transport E0 stBP0 [[[1]], [[6]]] [[5]] [[[10]], [[5]]]
    0 1 0 2 stB1 2 (by with_unfolding_all rfl) (by decide)
    (by with_unfolding_all rfl)

/-! ### Shape (rectangularity) lemmas -/

theorem colsOf_rect (a : Mat) (m n : Nat) (h : Rect a m n) (hm : 0 < m) :
    colsOf a = n := by
  obtain ⟨h1, h2⟩ := h
  cases a with
  | nil => simp at h1; omega
  | cons r t => exact h2 r (List.mem_cons_self r t)

theorem rect_matMap (f : ℚ → ℚ) (a : Mat) (m n : Nat) (h : Rect a m n) :
    Rect (matMap f a) m n := by
  obtain ⟨h1, h2⟩ := h
  refine ⟨by simp [matMap, h1], ?_⟩
  intro r hr
  simp only [matMap, List.mem_map] at hr
  obtain ⟨s, hs, rfl⟩ := hr
  simp [h2 s hs]

theorem rect_matZipWith (f : ℚ → ℚ → ℚ) :
    ∀ (a b : Mat) (m n : Nat), Rect a m n → Rect b m n →
      Rect (matZipWith f a b) m n := by
  intro a
  induction a with
  | nil =>
    intro b m n ha hb
    obtain ⟨h1, _⟩ := ha
    exact ⟨by simp [matZipWith, ← h1], by simp [matZipWith]⟩
  | cons r t ih =>
    intro b m n ha hb
    cases b with
    | nil =>
      obtain ⟨ha1, _⟩ := ha
      obtain ⟨hb1, _⟩ := hb
      simp at ha1 hb1
      omega
    | cons s u =>
      obtain ⟨ha1, ha2⟩ := ha
      obtain ⟨hb1, hb2⟩ := hb
      cases m with
      | zero => simp at ha1
      | succ m' =>
        have hrec := ih u m' n ⟨by simpa using ha1, fun q hq => ha2 q (by simp [hq])⟩
          ⟨by simpa using hb1, fun q hq => hb2 q (by simp [hq])⟩
        have hlt : t.length = m' := by simpa using ha1
        have hlu : u.length = m' := by simpa using hb1
        refine ⟨by simp [matZipWith, hlt, hlu], ?_⟩
        intro q hq
        simp only [matZipWith, List.zipWith_cons_cons, List.mem_cons] at hq
        rcases hq with hq | hq
        · subst hq
          rw [List.length_zipWith, ha2 r (by simp), hb2 s (by simp)]
          simp
        · exact hrec.2 q hq

theorem rect_transpose (a : Mat) (m n : Nat) (h : Rect a m n) (hm : 0 < m) :
    Rect (transpose a) n m := by
  refine ⟨by simp [transpose, colsOf_rect a m n h hm], ?_⟩
  intro r hr
  simp only [transpose, List.mem_map, List.mem_range] at hr
  obtain ⟨j, _, rfl⟩ := hr
  simp [h.1]

theorem rect_matmul (a b : Mat) (m k n : Nat) (ha : Rect a m k)
    (hb : Rect b k n) (hk : 0 < k) : Rect (matmul a b) m n := by
  refine ⟨by simp [matmul, ha.1], ?_⟩
  intro r hr
  simp only [matmul, List.mem_map] at hr
  obtain ⟨s, _, rfl⟩ := hr
  simp [colsOf_rect b k n hb hk]

theorem rect_eye (n : Nat) : Rect (eye n) n n := by
  refine ⟨by simp [eye], ?_⟩
  intro r hr
  simp only [eye, List.mem_map, List.mem_range] at hr
  obtain ⟨i, _, rfl⟩ := hr
  simp

theorem rect_add_bias (a : Mat) (m n : Nat) (h : Rect a m n) :
    Rect (add_bias a) m (n + 1) := by
  refine ⟨by simp [add_bias, h.1], ?_⟩
  intro r hr
  simp only [add_bias, List.mem_map] at hr
  obtain ⟨s, hs, rfl⟩ := hr
  simp [h.2 s hs]

theorem rect_dropLastCol (a : Mat) (m n : Nat) (h : Rect a m n) :
    Rect (dropLastCol a) m (n - 1) := by
  refine ⟨by simp [dropLastCol, h.1], ?_⟩
  intro r hr
  simp only [dropLastCol, List.mem_map] at hr
  obtain ⟨s, hs, rfl⟩ := hr
  simp [h.2 s hs]

theorem rect_zeroNonBias (a : Mat) (m n : Nat) (h : Rect a m n) :
    Rect (zeroNonBias a) m n := by
  refine ⟨by simp [zeroNonBias, h.1], ?_⟩
  intro r hr
  simp only [zeroNonBias, List.mem_map] at hr
  obtain ⟨s, hs, rfl⟩ := hr
  simp only [List.length_append, List.length_map, List.length_dropLast,
    List.length_drop]
  have := h.2 s hs
  omega

theorem rect_randnMat (g : Nat → ℚ) (idx r c : Nat) :
    Rect (randnMat g idx r c) r c := by
  refine ⟨by simp [randnMat], ?_⟩
  intro q hq
  simp only [randnMat, List.mem_map, List.mem_range] at hq
  obtain ⟨i, _, rfl⟩ := hq
  simp

theorem rect_normalize_xavier (x : Mat) (c : ℚ) (m n : Nat) (h : Rect x m n) :
    Rect (normalize_xavier x c) m n :=
  rect_matMap _ x m n h

theorem rect_matScale (c : ℚ) (a : Mat) (m n : Nat) (h : Rect a m n) :
    Rect (matScale c a) m n :=
  rect_matMap _ a m n h

theorem npDot_conform (a b : Mat) (m k n : Nat) (ha : Rect a m k) (hm : 0 < m)
    (hb : Rect b k n) : npDot a b = .ok (matmul a b) := by
  unfold npDot
  rw [if_pos]
  rw [colsOf_rect a m k ha hm, hb.1]

/-! ### Claim C3: the pseudoinverse -/

/-- C3: `pseudo_inverse` on an `m × n` matrix agrees with the spec's
formula — `Wᵗ·(W·Wᵗ + εI_m)⁻¹` when `m ≤ n`, `(Wᵗ·W + εI_n)⁻¹·Wᵗ` when
`m > n`, with the same side-selection rule and ridge constant
`ε = 1e-3` — and the result is an `n × m` matrix. -/
theorem claim_C3_pseudo_inverse (E : NumEnv) (w : Mat) (m n : Nat)
    (hw : Rect w m n) (hm : 0 < m) (hn : 0 < n)
    (hinv : InvShapePreserving E) :
    pseudo_inverse E w = pseudoInverseSpec E m n w ∧
    Rect (pseudo_inverse E w) n m := by
  have hrows : w.length = m := hw.1
  have hcols : colsOf w = n := colsOf_rect w m n hw hm
  have htr : Rect (transpose w) n m := rect_transpose w m n hw hm
  constructor
  · unfold pseudo_inverse pseudoInverseSpec
    rw [hrows, hcols]
  · unfold pseudo_inverse
    rw [hrows, hcols]
    by_cases hmn : m ≤ n
    · rw [if_pos hmn]
      have h1 : Rect (matmul w (transpose w)) m m := rect_matmul w _ m n m hw htr hn
      have h2 : Rect (matAdd (matmul w (transpose w)) (matScale (1 / 1000) (eye m))) m m :=
        rect_matZipWith _ _ _ m m h1 (rect_matScale _ _ m m (rect_eye m))
      exact rect_matmul _ _ n m m htr (hinv _ m m h2) hm
    · rw [if_neg hmn]
      have h1 : Rect (matmul (transpose w) w) n n := rect_matmul _ w n m n htr hw hm
      have h2 : Rect (matAdd (matmul (transpose w) w) (matScale (1 / 1000) (eye n))) n n :=
        rect_matZipWith _ _ _ n n h1 (rect_matScale _ _ n n (rect_eye n))
      exact rect_matmul _ _ n n m (hinv _ n n h2) htr hn

/-- Witness for C3 on the concrete `1 × 2` matrix `[[1, 2]]`. -/
theorem claim_C3_witness :
    pseudo_inverse E0 [[1, 2]] = pseudoInverseSpec E0 1 2 [[1, 2]] ∧
    Rect (pseudo_inverse E0 [[1, 2]]) 2 1 :=
  claim_C3_pseudo_inverse E0 [[1, 2]] 1 2 (by decide) (by decide) (by decide)
    (fun a m n h => h)

/-! ### Claim C10: FA-PI-B bias columns -/

/-- Every row of every listed weight matrix ends in the value `1.0`. -/
def lastColOnes (ws : List Mat) : Bool :=
  ws.all (fun w => w.all (fun r => r.getLastD 0 == 1))

theorem add_bias_lastOnes (x : Mat) :
    (add_bias x).all (fun r => r.getLastD 0 == 1) = true := by
  simp only [add_bias, List.all_eq_true, List.mem_map]
  rintro r ⟨s, _, rfl⟩
  rw [List.getLastD_concat]
  simp

theorem mkLayer_fapib (E : NumEnv) (ch o idx : Nat) :
    mkLayer E "FA-PI-B" ch o idx =
      .ok (add_bias (normalize_xavier (transpose (pseudo_inverse E
             (normalize_xavier (randnMat E.rng (idx + o * (ch + 1)) o ch) (o : ℚ)))) (ch : ℚ)),
           some (normalize_xavier (randnMat E.rng (idx + o * (ch + 1)) o ch) (o : ℚ)),
           idx + o * (ch + 1) + o * ch) := rfl

theorem buildLayers_fapib_bias (E : NumEnv) :
    ∀ (layers : List (Nat × String × Bool)) (ch idx : Nat)
      (ws bs : List Mat) (us : List Bool) (fs : List ActTag) (idx' : Nat),
      buildLayers E "FA-PI-B" ch idx layers = .ok (ws, bs, us, fs, idx') →
      lastColOnes ws = true := by
  intro layers
  induction layers with
  | nil =>
    intro ch idx ws bs us fs idx' h
    simp only [buildLayers] at h
    injection h with h
    cases h
    rfl
  | cons l rest ih =>
    intro ch idx ws bs us fs idx' h
    obtain ⟨o, aname, u⟩ := l
    simp only [buildLayers, mkLayer_fapib, except_bind_ok] at h
    cases hact : actLookup aname with
    | none =>
      rw [hact, pyLookup_none, except_bind_error] at h
      exact absurd h (by simp)
    | some t =>
      rw [hact, pyLookup_some, except_bind_ok] at h
      cases hrest : buildLayers E "FA-PI-B" o (idx + o * (ch + 1) + o * ch) rest with
      | error e =>
        rw [hrest, except_bind_error] at h
        exact absurd h (by simp)
      | ok res =>
        obtain ⟨ws1, bs1, us1, fs1, idx1⟩ := res
        rw [hrest, except_bind_ok] at h
        injection h with h
        simp only [Prod.mk.injEq] at h
        obtain ⟨h1, -, -, -, -⟩ := h
        subst h1
        have htail := ih o (idx + o * (ch + 1) + o * ch) ws1 bs1 us1 fs1 idx1 hrest
        simp only [lastColOnes, List.all_cons, Bool.and_eq_true]
        exact ⟨add_bias_lastOnes _, htail⟩

/-- C10: under learning mode FA-PI-B the bias (last) column of every
layer's weight matrix equals exactly `1.0` at construction — it is the
ones column appended by `add_bias` to the pseudoinverse-derived non-bias
portion — for every topology, random stream and external interpretation. -/
theorem claim_C10_fapib_bias (E : NumEnv) (input_dim : Nat)
    (layers : List (Nat × String × Bool)) (loss_type : String) (idx : Nat)
    (st : MLPState) (idx' : Nat)
    (h : mkMLP E input_dim layers loss_type "FA-PI-B" idx = .ok (st, idx')) :
    lastColOnes st.weights = true := by
  unfold mkMLP at h
  cases hb : buildLayers E "FA-PI-B" input_dim idx layers with
  | error e =>
    rw [hb, except_bind_error] at h
    exact absurd h (by simp)
  | ok res =>
    obtain ⟨ws, bs, us, fs, idx1⟩ := res
    rw [hb, except_bind_ok] at h
    dsimp only at h
    cases hl : lossLookup loss_type with
    | none =>
      rw [hl, pyLookup_none, except_bind_error] at h
      exact absurd h (by simp)
    | some lt =>
      rw [hl, pyLookup_some, except_bind_ok] at h
      injection h with h
      simp only [Prod.mk.injEq] at h
      obtain ⟨h1, -⟩ := h
      have hw : st.weights = ws := by rw [← h1]
      rw [hw]
      exact buildLayers_fapib_bias E layers input_dim idx ws bs us fs idx1 hb

/-- The model `mkMLP E0 1 [(1, "identity", true)] "mse" "FA-PI-B" 0`
yields. -/
def stPib0 : MLPState :=
  { backward_weights := [[[0]]], weights := [[[0, 1]]], updateable := [true],
    funcs := [.identity], loss := .mse, learning := "FA-PI-B" }

/-- Witness for C10 at a concrete one-layer topology. -/
theorem claim_C10_witness : lastColOnes stPib0.weights = true :=
  claim_C10_fapib_bias E0 1 [(1, "identity", true)] "mse" 0 stPib0 3
    (by with_unfolding_all rfl)

/-! ### Claim C7: construction errors -/

/-- The five learning-mode names the constructor accepts. -/
def validModeB (s : String) : Bool :=
  s == "BP" || s == "PI" || s == "FA" || s == "FA-PI-W" || s == "FA-PI-B"

/-- Whether a Python call returned normally (no exception). -/
def isOkE {α : Type _} : Except PyErr α → Bool
  | .ok _ => true
  | .error _ => false

theorem mkLayer_unknown (E : NumEnv) (learning : String)
    (h : validModeB learning = false) (ch o idx : Nat) :
    mkLayer E learning ch o idx = .error .runtimeError := by
  simp only [validModeB, Bool.or_eq_false_iff, beq_eq_false_iff_ne] at h
  obtain ⟨⟨⟨⟨h1, h2⟩, h3⟩, h4⟩, h5⟩ := h
  unfold mkLayer
  rw [if_neg h1, if_neg h2, if_neg h3, if_neg h4, if_neg h5]

theorem mkLayer_known (E : NumEnv) (learning : String)
    (h : validModeB learning = true) (ch o idx : Nat) :
    ∃ w bOpt idx2, mkLayer E learning ch o idx = .ok (w, bOpt, idx2) := by
  simp only [validModeB, Bool.or_eq_true, beq_iff_eq] at h
  rcases h with ((((h | h) | h) | h) | h) <;> subst h
  · exact ⟨_, _, _, rfl⟩
  · exact ⟨_, _, _, rfl⟩
  · exact ⟨_, _, _, rfl⟩
  · exact ⟨_, _, _, rfl⟩
  · exact ⟨_, _, _, rfl⟩

theorem buildLayers_badact (E : NumEnv) (learning : String)
    (hm : validModeB learning = true) :
    ∀ (layers : List (Nat × String × Bool)) (ch idx : Nat),
      (∃ l ∈ layers, actLookup l.2.1 = none) →
      isOkE (buildLayers E learning ch idx layers) = false := by
  intro layers
  induction layers with
  | nil =>
    intro ch idx hbad
    simp at hbad
  | cons l rest ih =>
    intro ch idx hbad
    obtain ⟨o, a, u⟩ := l
    obtain ⟨w, bOpt, idx2, hml⟩ := mkLayer_known E learning hm ch o idx
    simp only [buildLayers, hml, except_bind_ok]
    cases hact : actLookup a with
    | none => rw [pyLookup_none, except_bind_error]; rfl
    | some t =>
      rw [pyLookup_some, except_bind_ok]
      have hbad' : ∃ l ∈ rest, actLookup l.2.1 = none := by
        rcases hbad with ⟨l, hl, hnone⟩
        rcases List.mem_cons.mp hl with rfl | hl'
        · exact absurd hnone (by simp [hact])
        · exact ⟨l, hl', hnone⟩
      have := ih o idx2 hbad'
      cases hr : buildLayers E learning o idx2 rest with
      | error e => rfl
      | ok res => rw [hr] at this; exact absurd this (by simp [isOkE])

/-- C7 corrected: with a nonempty layer list, an unknown learning-mode
name fails construction (`RuntimeError`); an unknown activation name in
any layer fails construction (`KeyError`); an unknown loss name fails
construction (`KeyError`).  (The claim's "for every list of layer specs"
fails for the unknown-mode case at the empty list, where the per-layer
mode check never runs; see the counterexample.) -/
theorem claim_C7_invalid_config (E : NumEnv) (input_dim : Nat)
    (layers : List (Nat × String × Bool)) (loss_type learning : String)
    (idx : Nat) :
    (layers ≠ [] → validModeB learning = false →
      isOkE (mkMLP E input_dim layers loss_type learning idx) = false) ∧
    ((∃ l ∈ layers, actLookup l.2.1 = none) →
      isOkE (mkMLP E input_dim layers loss_type learning idx) = false) ∧
    (lossLookup loss_type = none →
      isOkE (mkMLP E input_dim layers loss_type learning idx) = false) := by
  have hbuild : ∀ (res : Except PyErr (List Mat × List Mat × List Bool × List ActTag × Nat)),
      buildLayers E learning input_dim idx layers = res →
      isOkE res = false →
      isOkE (mkMLP E input_dim layers loss_type learning idx) = false := by
    intro res hres hfail
    unfold mkMLP
    rw [hres]
    cases res with
    | error e => rfl
    | ok v => exact absurd hfail (by simp [isOkE])
  refine ⟨?_, ?_, ?_⟩
  · intro hne hmode
    cases layers with
    | nil => exact absurd rfl hne
    | cons l rest =>
      obtain ⟨o, a, u⟩ := l
      apply hbuild _ rfl
      simp only [buildLayers, mkLayer_unknown E learning hmode, except_bind_error]
      rfl
  · intro hbad
    cases hm : validModeB learning with
    | false =>
      have hne : layers ≠ [] := by
        rcases hbad with ⟨l, hl, -⟩
        intro hcon
        rw [hcon] at hl
        simp at hl
      cases layers with
      | nil => exact absurd rfl hne
      | cons l rest =>
        obtain ⟨o, a, u⟩ := l
        apply hbuild _ rfl
        simp only [buildLayers, mkLayer_unknown E learning hm, except_bind_error]
        rfl
    | true =>
      have := buildLayers_badact E learning hm layers input_dim idx hbad
      cases hr : buildLayers E learning input_dim idx layers with
      | error e => exact hbuild _ hr (by rfl)
      | ok res => rw [hr] at this; exact absurd this (by simp [isOkE])
  · intro hloss
    cases hr : buildLayers E learning input_dim idx layers with
    | error e => exact hbuild _ hr (by rfl)
    | ok res =>
      obtain ⟨ws, bs, us, fs, idx1⟩ := res
      unfold mkMLP
      rw [hr, except_bind_ok]
      dsimp only
      rw [hloss, pyLookup_none, except_bind_error]
      rfl

/-- Counterexample to C7 as stated: with an empty layer list, an unknown
learning-mode name does not fail construction at all — the per-layer mode
check never runs and `mkMLP` returns normally. -/
theorem claim_C7_counterexample :
    isOkE (mkMLP E0 1 [] "mse" "bogus" 0) = true ∧
    validModeB "bogus" = false := by
  exact ⟨rfl, rfl⟩

/-- Witness for the corrected C7 at a concrete bad mode name. -/
theorem claim_C7_witness :
    isOkE (mkMLP E0 1 [(1, "bogusact", true)] "badloss" "XX" 0) = false :=
  (claim_C7_invalid_config E0 1 [(1, "bogusact", true)] "badloss" "XX" 0).1
    (by simp) (by rfl)

/-! ### Claim C9: shape checking -/

/-- C9 corrected: the train/validation width comparison is the only eager
width check — it is an assertion at the start of `fit`.  A batch whose
width differs from the model's expected input dimension passes `forward`'s
eager check (which only constrains the number of axes, enforced here by
the `Mat` type) and surfaces as a `ValueError` from inside the first
matrix product, not as an eager assertion. -/
theorem claim_C9_shape_checks (E : NumEnv) (st : MLPState) (xs w : Mat)
    (tw : List Mat) (f : ActTag) (tf : List ActTag) (b k D o : Nat)
    (sched : Nat → Bool) (ans : Bool) (st2 : MLPState) (idx : Nat)
    (xs2 ys2 xv yv : Mat) (bs ne : Nat) (lr gn wd : ℚ) :
    (st.weights = w :: tw → st.funcs = f :: tf → Rect w o (D + 1) → 0 < o →
      Rect xs b k → 0 < b → k ≠ D →
      MLP.forward E st xs = .error .valueError) ∧
    (xs2.length = ys2.length → xv.length = yv.length →
      colsOf xs2 ≠ colsOf xv →
      MLP.fit E sched ans st2 idx xs2 ys2 (some (xv, yv)) bs ne lr gn wd =
        .error .assertionError) := by
  constructor
  · intro h1 h2 hw ho hxs hb hk
    have hnp : npDot (add_bias xs) (transpose w) = .error .valueError := by
      unfold npDot
      rw [if_neg]
      have hc1 : colsOf (add_bias xs) = k + 1 :=
        colsOf_rect (add_bias xs) b (k + 1) (rect_add_bias xs b k hxs) hb
      have hc2 : (transpose w).length = D + 1 := by
        simp only [transpose, List.length_map, List.length_range]
        exact colsOf_rect w o (D + 1) hw ho
      rw [hc1, hc2]
      omega
    unfold MLP.forward
    rw [h1, h2, List.zip_cons_cons]
    simp only [MLP.forwardGo]
    rw [show ([xs] : List Mat).getLastD [] = xs from rfl, hnp, except_bind_error]
  · intro h1 h2 h3
    unfold MLP.fit
    rw [if_neg (fun hc => hc h1)]
    dsimp only
    rw [if_neg (fun hc => hc h2), if_pos h3]

/-- Counterexample to C9 as stated: a `1 × 3` batch fed to a model whose
input dimension is 2 (weight matrix `1 × 3` spans 2 inputs plus bias) is
not rejected by an eager shape check; the error is the `ValueError` from
the matrix product inside the numeric code, which is not the assertion
error class the eager checks use. -/
theorem claim_C9_counterexample :
    MLP.forward E0 stBP0 [[1, 2, 3]] = .error .valueError ∧
    PyErr.valueError ≠ PyErr.assertionError := by
  refine ⟨rfl, by decide⟩

/-- Witness for the corrected C9 at concrete inputs. -/
theorem claim_C9_witness :
    MLP.forward E0 stBP0 [[1, 2, 3]] = Except.error PyErr.valueError ∧
    MLP.fit E0 noInterrupt false stBP0 2 [[1]] [[1]] (some ([[1, 2]], [[1]]))
        1 1 1 0 0 = Except.error PyErr.assertionError :=
  ⟨(claim_C9_shape_checks E0 stBP0 [[1, 2, 3]] [[2, 4]] [] .identity [] 1 3 1 1
      noInterrupt false stBP0 2 [[1]] [[1]] [[1, 2]] [[1]] 1 1 1 0 0).1
      rfl rfl (by decide) (by decide) (by decide) (by decide) (by decide),
   (claim_C9_shape_checks E0 stBP0 [[1, 2, 3]] [[2, 4]] [] .identity [] 1 3 1 1
      noInterrupt false stBP0 2 [[1]] [[1]] [[1, 2]] [[1]] 1 1 1 0 0).2
      rfl rfl (by decide)⟩

/-! ### Claim C4: weight decay in the batch step -/

/-- Entry `(r, c)` of layer `i`'s weight matrix. -/
def entryAt (st : MLPState) (i r c : Nat) : ℚ :=
  ((st.weights.getD i []).getD r []).getD c 0

/-- The bias (last-column) entry of row `r` of layer `i`'s weight matrix. -/
def biasAt (st : MLPState) (i r : Nat) : ℚ :=
  ((st.weights.getD i []).getD r []).getLastD 0

theorem getD_map {α β : Type _} (f : α → β) (l : List α) (i : Nat) (d : α) :
    (l.map f).getD i (f d) = f (l.getD i d) := by
  induction l generalizing i with
  | nil => cases i <;> rfl
  | cons x t ih =>
    cases i with
    | zero => rfl
    | succ n =>
      simp only [List.map_cons, List.getD_cons_succ]
      exact ih n

theorem getD_dropLast (row : List ℚ) (c : Nat) (h : c < row.length - 1) :
    row.dropLast.getD c 0 = row.getD c 0 := by
  rw [List.getD_eq_getElem _ _ (by simp [List.length_dropLast]; omega),
    List.getD_eq_getElem _ _ (by omega)]
  exact List.getElem_dropLast row c _

theorem drop_len_sub_one (row : List ℚ) (hne : row ≠ []) :
    row.drop (row.length - 1) = [row.getLastD 0] := by
  induction row with
  | nil => exact absurd rfl hne
  | cons x t ih =>
    cases t with
    | nil => rfl
    | cons y u =>
      have h1 : (x :: y :: u).length - 1 = ((y :: u).length - 1) + 1 := by
        simp
      rw [h1, List.drop_succ_cons, ih (by simp)]
      simp [List.getLastD_cons]

theorem decay_row_getD (row : List ℚ) (dcy : ℚ) (c : Nat)
    (h : c + 1 < row.length) :
    (row.dropLast.map (· * dcy) ++ row.drop (row.length - 1)).getD c 0 =
      row.getD c 0 * dcy := by
  rw [getD_append_lt _ _ c _ (by simp [List.length_dropLast]; omega)]
  have h0 : (row.dropLast.map (· * dcy)).getD c ((0 : ℚ) * dcy) =
      row.dropLast.getD c 0 * dcy := getD_map (· * dcy) row.dropLast c 0
  rw [zero_mul] at h0
  rw [h0, getD_dropLast row c (by omega)]

theorem decay_row_getLastD (row : List ℚ) (dcy : ℚ) :
    (row.dropLast.map (· * dcy) ++ row.drop (row.length - 1)).getLastD 0 =
      row.getLastD 0 := by
  cases hrow : row with
  | nil => rfl
  | cons x t =>
    rw [drop_len_sub_one (x :: t) (by simp), List.getLastD_concat]

theorem weight_decay_getD (st : MLPState) (dcy : ℚ) (i r : Nat) :
    ((MLP.weight_decay st dcy).weights.getD i []).getD r [] =
      (((st.weights.getD i []).getD r []).dropLast.map (· * dcy) ++
        ((st.weights.getD i []).getD r []).drop
          (((st.weights.getD i []).getD r []).length - 1)) := by
  unfold MLP.weight_decay
  have h1 := getD_map
    (fun w => w.map (fun row => row.dropLast.map (· * dcy) ++ row.drop (row.length - 1)))
    st.weights i []
  simp only [List.map_nil] at h1
  dsimp only
  rw [h1]
  have h2 := getD_map
    (fun row => row.dropLast.map (· * dcy) ++ row.drop (row.length - 1))
    (st.weights.getD i []) r []
  simp only [List.dropLast_nil, List.map_nil, List.drop_nil, List.nil_append] at h2
  rw [h2]

/-- C4: a `fit` mini-batch of `k = len(batchidx)` samples applies, after
the backward update, the multiplicative decay `(1 - d)^k` to exactly the
non-bias columns of every layer's weight matrix when `d > 0`, leaves the
bias (last) column unchanged, and applies no decay at all when `d = 0`. -/
theorem claim_C4_weight_decay (E : NumEnv) (cfg : TrainCfg) (fs : FitState)
    (a : Accum) (bidx : List Nat) (acts : List Mat) (ps : Mat)
    (stMid : MLPState) (idxMid : Nat) (fs' : FitState) (a' : Accum)
    (i r c : Nat)
    (hf : MLP.forward E fs.st (selectRows cfg.xs bidx) = .ok (acts, ps))
    (hb : MLP.backward E fs.st acts
        (matMap (fun v => v / (bidx.length : ℚ))
          (lossPrime E fs.st.loss ps (selectRows cfg.ys bidx)))
        cfg.lr cfg.gn fs.rngIdx = .ok (stMid, idxMid))
    (hstep : trainBatchStep E cfg fs a bidx = .ok (fs', a')) :
    (0 < cfg.wd → fs'.st = MLP.weight_decay stMid ((1 - cfg.wd) ^ bidx.length)) ∧
    (cfg.wd = 0 → fs'.st = stMid) ∧
    (c + 1 < ((stMid.weights.getD i []).getD r []).length →
      entryAt (MLP.weight_decay stMid ((1 - cfg.wd) ^ bidx.length)) i r c =
        entryAt stMid i r c * (1 - cfg.wd) ^ bidx.length) ∧
    biasAt (MLP.weight_decay stMid ((1 - cfg.wd) ^ bidx.length)) i r =
      biasAt stMid i r := by
  unfold trainBatchStep at hstep
  dsimp only at hstep
  rw [hf, except_bind_ok] at hstep
  dsimp only at hstep
  rw [hb, except_bind_ok] at hstep
  injection hstep with hstep
  simp only [Prod.mk.injEq] at hstep
  obtain ⟨hfs, -⟩ := hstep
  refine ⟨?_, ?_, ?_, ?_⟩
  · intro hwd
    rw [← hfs]
    simp [if_pos hwd]
  · intro hwd
    rw [← hfs]
    rw [if_neg (by rw [hwd]; exact lt_irrefl 0)]
  · intro hc
    unfold entryAt
    rw [weight_decay_getD]
    exact decay_row_getD _ _ c hc
  · unfold biasAt
    rw [weight_decay_getD]
    exact decay_row_getLastD _ _

/-- A one-sample training configuration with weight-decay rate `1/2`. -/
def cfgHalf : TrainCfg := ⟨[[1]], [[1]], none, 1, 1, 0, 1 / 2⟩

/-- The initial fit state for the `stBP0` fixture. -/
def fsInit : FitState := ⟨stBP0, 2, 0, [], 0⟩

/-- `stB1` after the decay `(1 - 1/2)^1` of the non-bias column. -/
def stB1d : MLPState :=
  { backward_weights := [], weights := [[[-3 / 2, -1]]], updateable := [true],
    funcs := [.identity], loss := .mse, learning := "BP" }

/-- Witness for C4 at a concrete one-sample batch with decay rate 1/2. -/
theorem claim_C4_witness :
    (⟨stB1d, 2, 0, [⟨1, 25 / 2, 1, "train-intermediate"⟩], 0⟩ : FitState).st =
      MLP.weight_decay stB1 ((1 - (1 / 2 : ℚ)) ^ ([0] : List Nat).length) ∧
    entryAt (MLP.weight_decay stB1 ((1 - (1 / 2 : ℚ)) ^ ([0] : List Nat).length)) 0 0 0 =
      entryAt stB1 0 0 0 * (1 - (1 / 2 : ℚ)) ^ ([0] : List Nat).length ∧
    biasAt (MLP.weight_decay stB1 ((1 - (1 / 2 : ℚ)) ^ ([0] : List Nat).length)) 0 0 =
      biasAt stB1 0 0 := by
  have T := claim_C4_weight_decay E0 cfgHalf fsInit ⟨0, 0, 0⟩ [0]
    [[[1]], [[6]]] [[6]] stB1 2
    ⟨stB1d, 2, 0, [⟨1, 25 / 2, 1, "train-intermediate"⟩], 0⟩ ⟨25 / 2, 1, 1⟩ 0 0 0
    (by with_unfolding_all rfl) (by with_unfolding_all rfl)
    (by with_unfolding_all rfl)
  exact ⟨T.1 (by with_unfolding_all decide), T.2.2.1 (by with_unfolding_all decide),
    T.2.2.2⟩

/-! ### Claim C2: frozen layers -/

theorem getD_set_ne {α : Type _} (l : List α) (j i : Nat) (x d : α)
    (h : j ≠ i) : (l.set j x).getD i d = l.getD i d := by
  induction l generalizing i j with
  | nil => rfl
  | cons a t ih =>
    cases j with
    | zero =>
      cases i with
      | zero => exact absurd rfl h
      | succ n => rfl
    | succ m =>
      cases i with
      | zero => rfl
      | succ n =>
        simp only [List.set_cons_succ, List.getD_cons_succ]
        exact ih m n (fun hc => h (by rw [hc]))

theorem updGo_frozen (E : NumEnv) (eta gn : ℚ) (acts : List Mat) (i : Nat) :
    ∀ (pairs : List (Nat × Mat)) (st : MLPState) (idx : Nat)
      (st' : MLPState) (idx' : Nat),
      updGo E eta gn acts pairs st idx = .ok (st', idx') →
      st.updateable.getD i true = false →
      st'.weights.getD i [] = st.weights.getD i [] := by
  intro pairs
  induction pairs with
  | nil =>
    intro st idx st' idx' h hf
    simp only [updGo] at h
    injection h with h
    injection h with h1 h2
    subst h1
    rfl
  | cons p rest ih =>
    intro st idx st' idx' h hf
    obtain ⟨j, dm⟩ := p
    simp only [updGo] at h
    by_cases hup : st.updateable.getD j true = false
    · rw [if_pos hup] at h
      exact ih st idx st' idx' h hf
    · rw [if_neg hup] at h
      cases hnp : npDot (transpose dm) (add_bias (acts.getD j [])) with
      | error e =>
        rw [hnp, except_bind_error] at h
        exact absurd h (by simp)
      | ok diff0 =>
        rw [hnp, except_bind_ok] at h
        have hji : j ≠ i := fun hc => hup (hc ▸ hf)
        have hrec := ih _ _ _ _ h hf
        rw [hrec]
        exact getD_set_ne st.weights j i _ [] hji

theorem backward_frozen (E : NumEnv) (st : MLPState) (acts : List Mat)
    (delta : Mat) (eta gn : ℚ) (idx : Nat) (st' : MLPState) (idx' : Nat)
    (h : MLP.backward E st acts delta eta gn idx = .ok (st', idx'))
    (i : Nat) (hf : st.updateable.getD i true = false) :
    st'.weights.getD i [] = st.weights.getD i [] ∧
    st'.updateable = st.updateable := by
  unfold MLP.backward at h
  cases hds : backwardDeltas E st acts delta with
  | error e =>
    rw [hds, except_bind_error] at h
    exact absurd h (by simp)
  | ok ds =>
    rw [hds, except_bind_ok] at h
    exact ⟨updGo_frozen E eta gn acts i _ st idx st' idx' h hf,
      (updGo_preserves_frame E eta gn acts _ st idx st' idx' h).2.1⟩

theorem batchStep_frozen (E : NumEnv) (cfg : TrainCfg) (fs : FitState)
    (a : Accum) (bidx : List Nat) (fs' : FitState) (a' : Accum)
    (hwd : cfg.wd = 0)
    (h : trainBatchStep E cfg fs a bidx = .ok (fs', a'))
    (i : Nat) (hf : fs.st.updateable.getD i true = false) :
    fs'.st.weights.getD i [] = fs.st.weights.getD i [] ∧
    fs'.st.updateable = fs.st.updateable := by
  unfold trainBatchStep at h
  dsimp only at h
  cases hfw : MLP.forward E fs.st (selectRows cfg.xs bidx) with
  | error e =>
    rw [hfw, except_bind_error] at h
    exact absurd h (by simp)
  | ok p =>
    obtain ⟨acts, ps⟩ := p
    rw [hfw, except_bind_ok] at h
    dsimp only at h
    cases hbk : MLP.backward E fs.st acts
        (matMap (fun v => v / (bidx.length : ℚ))
          (lossPrime E fs.st.loss ps (selectRows cfg.ys bidx)))
        cfg.lr cfg.gn fs.rngIdx with
    | error e =>
      rw [hbk, except_bind_error] at h
      exact absurd h (by simp)
    | ok q =>
      obtain ⟨st1, idx1⟩ := q
      rw [hbk, except_bind_ok] at h
      injection h with h
      simp only [Prod.mk.injEq] at h
      obtain ⟨h1, -⟩ := h
      subst h1
      have hb := backward_frozen E fs.st acts _ cfg.lr cfg.gn fs.rngIdx st1 idx1 hbk i hf
      constructor
      · show (if 0 < cfg.wd then MLP.weight_decay st1 ((1 - cfg.wd) ^ bidx.length)
            else st1).weights.getD i [] = fs.st.weights.getD i []
        rw [hwd, if_neg (lt_irrefl 0)]
        exact hb.1
      · show (if 0 < cfg.wd then MLP.weight_decay st1 ((1 - cfg.wd) ^ bidx.length)
            else st1).updateable = fs.st.updateable
        rw [hwd, if_neg (lt_irrefl 0)]
        exact hb.2

theorem trainLoop_frozen (E : NumEnv) (sched : Nat → Bool) (cfg : TrainCfg)
    (hwd : cfg.wd = 0) (i : Nat) :
    ∀ (bs : List (List Nat)) (fs : FitState) (a : Accum) (fs' : FitState),
      ((∃ a', trainLoop E sched cfg bs fs a = .ok (fs', a')) ∨
        trainLoop E sched cfg bs fs a = .intr fs') →
      fs.st.updateable.getD i true = false →
      fs'.st.weights.getD i [] = fs.st.weights.getD i [] ∧
      fs'.st.updateable = fs.st.updateable := by
  intro bs
  induction bs with
  | nil =>
    intro fs a fs' hres hf
    rcases hres with ⟨a', hok⟩ | hint
    · simp only [trainLoop] at hok
      injection hok with hok
      simp only [Prod.mk.injEq] at hok
      rw [← hok.1]
      exact ⟨rfl, rfl⟩
    · simp only [trainLoop] at hint
      exact absurd hint (by simp)
  | cons b rest ih =>
    intro fs a fs' hres hf
    by_cases hs : sched fs.tick
    · have hred : trainLoop E sched cfg (b :: rest) fs a = .intr fs := by
        simp only [trainLoop, if_pos hs]
      rcases hres with ⟨a', hok⟩ | hint
      · rw [hred] at hok; exact absurd hok (by simp)
      · rw [hred] at hint
        injection hint with hint
        rw [← hint]
        exact ⟨rfl, rfl⟩
    · have hred : trainLoop E sched cfg (b :: rest) fs a =
          match trainBatchStep E cfg { fs with tick := fs.tick + 1 } a b with
          | .error e => .err e
          | .ok (fs1, a1) => trainLoop E sched cfg rest fs1 a1 := by
        simp only [trainLoop, if_neg hs]
      cases hstep : trainBatchStep E cfg { fs with tick := fs.tick + 1 } a b with
      | error e =>
        rw [hstep] at hred
        rcases hres with ⟨a', hok⟩ | hint
        · rw [hred] at hok; exact absurd hok (by simp)
        · rw [hred] at hint; exact absurd hint (by simp)
      | ok q =>
        obtain ⟨fs1, a1⟩ := q
        rw [hstep] at hred
        have hbs := batchStep_frozen E cfg { fs with tick := fs.tick + 1 } a b fs1 a1 hwd hstep i hf
        have hft : fs1.st.updateable.getD i true = false := by
          rw [hbs.2]; exact hf
        have hnext := ih fs1 a1 fs' (by
          rcases hres with ⟨a', hok⟩ | hint
          · rw [hred] at hok; exact Or.inl ⟨a', hok⟩
          · rw [hred] at hint; exact Or.inr hint) hft
        exact ⟨by rw [hnext.1, hbs.1], by rw [hnext.2, hbs.2]⟩

theorem epochBody_frozen (E : NumEnv) (sched : Nat → Bool) (cfg : TrainCfg)
    (hwd : cfg.wd = 0) (i : Nat) (fs fs' : FitState)
    (hres : epochBody E sched cfg fs = .ok fs' ∨
      epochBody E sched cfg fs = .intr fs')
    (hf : fs.st.updateable.getD i true = false) :
    fs'.st.weights.getD i [] = fs.st.weights.getD i [] ∧
    fs'.st.updateable = fs.st.updateable := by
  by_cases hbs0 : cfg.bs = 0
  · rcases hres with hok | hint
    · unfold epochBody at hok
      rw [if_pos hbs0] at hok
      exact absurd hok (by simp)
    · unfold epochBody at hint
      rw [if_pos hbs0] at hint
      exact absurd hint (by simp)
  · have hunf : ∀ r, epochBody E sched cfg fs = r →
        (r = .ok fs' ∨ r = .intr fs') → fs'.st.weights.getD i [] = fs.st.weights.getD i [] ∧
        fs'.st.updateable = fs.st.updateable := by
      intro r hr hcase
      unfold epochBody at hr
      rw [if_neg hbs0] at hr
      cases htl : trainLoop E sched cfg (batchLists cfg.ys.length cfg.bs) fs ⟨0, 0, 0⟩ with
      | intr s =>
        rw [htl] at hr
        dsimp only at hr
        subst hr
        rcases hcase with hok | hint
        · exact absurd hok (by simp)
        · injection hint with hint
          subst hint
          exact trainLoop_frozen E sched cfg hwd i _ fs ⟨0, 0, 0⟩ s (Or.inr htl) hf
      | err e2 =>
        rw [htl] at hr
        dsimp only at hr
        subst hr
        rcases hcase with hok | hint
        · exact absurd hok (by simp)
        · exact absurd hint (by simp)
      | ok q =>
        obtain ⟨fs1, a⟩ := q
        rw [htl] at hr
        dsimp only at hr
        have h1 := trainLoop_frozen E sched cfg hwd i _ fs ⟨0, 0, 0⟩ fs1
          (Or.inl ⟨a, htl⟩) hf
        cases hval : cfg.validation with
        | none =>
          rw [hval] at hr
          dsimp only at hr
          subst hr
          rcases hcase with hok | hint
          · injection hok with hok
            subst hok
            exact h1
          · exact absurd hint (by simp)
        | some pv =>
          obtain ⟨xv, yv⟩ := pv
          rw [hval] at hr
          dsimp only at hr
          by_cases hyv : 0 < yv.length
          · rw [if_pos hyv] at hr
            cases hvl : validLoop E fs1.st xv yv (batchLists yv.length cfg.bs) (0, 0) with
            | error e2 =>
              rw [hvl] at hr
              subst hr
              rcases hcase with hok | hint
              · exact absurd hok (by simp)
              · exact absurd hint (by simp)
            | ok la =>
              obtain ⟨vl, va⟩ := la
              rw [hvl] at hr
              dsimp only at hr
              subst hr
              rcases hcase with hok | hint
              · injection hok with hok
                subst hok
                exact h1
              · exact absurd hint (by simp)
          · rw [if_neg hyv] at hr
            subst hr
            rcases hcase with hok | hint
            · injection hok with hok
              subst hok
              exact h1
            · exact absurd hint (by simp)
    exact hunf _ rfl hres

theorem epochLoop_frozen (E : NumEnv) (sched : Nat → Bool) (cfg : TrainCfg)
    (hwd : cfg.wd = 0) (i : Nat) :
    ∀ (es : List Nat) (fs fs' : FitState),
      (epochLoop E sched cfg es fs = .ok fs' ∨
        epochLoop E sched cfg es fs = .intr fs') →
      fs.st.updateable.getD i true = false →
      fs'.st.weights.getD i [] = fs.st.weights.getD i [] ∧
      fs'.st.updateable = fs.st.updateable := by
  intro es
  induction es with
  | nil =>
    intro fs fs' hres hf
    rcases hres with hok | hint
    · simp only [epochLoop] at hok
      injection hok with hok
      subst hok
      exact ⟨rfl, rfl⟩
    · simp only [epochLoop] at hint
      exact absurd hint (by simp)
  | cons e rest ih =>
    intro fs fs' hres hf
    have hdef : epochLoop E sched cfg (e :: rest) fs =
        match epochBody E sched cfg fs with
        | .ok fs3 => epochLoop E sched cfg rest fs3
        | .intr s => .intr s
        | .err e2 => .err e2 := rfl
    cases hbody : epochBody E sched cfg fs with
    | ok fs3 =>
      rw [hbody] at hdef
      have h1 := epochBody_frozen E sched cfg hwd i fs fs3 (Or.inl hbody) hf
      have hf3 : fs3.st.updateable.getD i true = false := by rw [h1.2]; exact hf
      rw [hdef] at hres
      have h2 := ih fs3 fs' hres hf3
      exact ⟨by rw [h2.1, h1.1], by rw [h2.2, h1.2]⟩
    | intr s =>
      rw [hbody] at hdef
      rw [hdef] at hres
      have h1 := epochBody_frozen E sched cfg hwd i fs s (Or.inr hbody) hf
      rcases hres with hok | hint
      · exact absurd hok (by simp)
      · injection hint with hint
        subst hint
        exact h1
    | err e2 =>
      rw [hbody] at hdef
      rw [hdef] at hres
      rcases hres with hok | hint
      · exact absurd hok (by simp)
      · exact absurd hint (by simp)

theorem fitGo_frozen (E : NumEnv) (sched : Nat → Bool) (ans : Bool)
    (cfg : TrainCfg) (ne : Nat) (st : MLPState) (idx : Nat)
    (st' : MLPState) (lg : List LogEntry) (idx' : Nat)
    (hwd : cfg.wd = 0)
    (h : MLP.fitGo E sched ans cfg ne st idx = .ok (st', lg, idx'))
    (i : Nat) (hf : st.updateable.getD i true = false) :
    st'.weights.getD i [] = st.weights.getD i [] ∧
    st'.updateable = st.updateable := by
  unfold MLP.fitGo at h
  cases hel : epochLoop E sched cfg (List.range ne) ⟨st, idx, 0, [], 0⟩ with
  | err e =>
    rw [hel] at h
    exact absurd h (by simp)
  | ok fs =>
    rw [hel] at h
    injection h with h
    simp only [Prod.mk.injEq] at h
    obtain ⟨hst, -⟩ := h
    subst hst
    exact epochLoop_frozen E sched cfg hwd i _ ⟨st, idx, 0, [], 0⟩ fs (Or.inl hel) hf
  | intr fs =>
    rw [hel] at h
    cases ans with
    | true =>
      dsimp only at h
      exact absurd h (by simp)
    | false =>
      dsimp only at h
      injection h with h
      simp only [Prod.mk.injEq] at h
      obtain ⟨hst, -⟩ := h
      subst hst
      exact epochLoop_frozen E sched cfg hwd i _ ⟨st, idx, 0, [], 0⟩ fs (Or.inr hel) hf

theorem fit_frozen (E : NumEnv) (sched : Nat → Bool) (ans : Bool)
    (st : MLPState) (idx : Nat) (xs ys : Mat) (val : Option (Mat × Mat))
    (bs ne : Nat) (lr gn : ℚ) (st' : MLPState) (lg : List LogEntry) (idx' : Nat)
    (h : MLP.fit E sched ans st idx xs ys val bs ne lr gn 0 = .ok (st', lg, idx'))
    (i : Nat) (hf : st.updateable.getD i true = false) :
    st'.weights.getD i [] = st.weights.getD i [] ∧
    st'.updateable = st.updateable := by
  unfold MLP.fit at h
  by_cases h1 : xs.length ≠ ys.length
  · rw [if_pos h1] at h
    exact absurd h (by simp)
  · rw [if_neg h1] at h
    cases val with
    | none =>
      dsimp only at h
      exact fitGo_frozen E sched ans _ ne st idx st' lg idx' rfl h i hf
    | some pv =>
      obtain ⟨xv, yv⟩ := pv
      dsimp only at h
      by_cases h2 : xv.length ≠ yv.length
      · rw [if_pos h2] at h
        exact absurd h (by simp)
      · rw [if_neg h2] at h
        by_cases h3 : colsOf xs ≠ colsOf xv
        · rw [if_pos h3] at h
          exact absurd h (by simp)
        · rw [if_neg h3] at h
          exact fitGo_frozen E sched ans _ ne st idx st' lg idx' rfl h i hf

theorem fitMany_frozen (E : NumEnv) (sched : Nat → Bool) (ans : Bool) :
    ∀ (ps : List FitArgs) (st : MLPState) (idx : Nat) (stM : MLPState) (idxM : Nat),
      fitMany E sched ans ps st idx = .ok (stM, idxM) →
      (∀ p ∈ ps, p.wd = 0) →
      ∀ i, st.updateable.getD i true = false →
      stM.weights.getD i [] = st.weights.getD i [] ∧
      stM.updateable = st.updateable := by
  intro ps
  induction ps with
  | nil =>
    intro st idx stM idxM h hwd i hf
    simp only [fitMany] at h
    injection h with h
    simp only [Prod.mk.injEq] at h
    obtain ⟨h1, -⟩ := h
    subst h1
    exact ⟨rfl, rfl⟩
  | cons p rest ih =>
    intro st idx stM idxM h hwd i hf
    simp only [fitMany] at h
    cases hfit : MLP.fit E sched ans st idx p.xs p.ys p.validation p.bs p.ne
        p.lr p.gn p.wd with
    | error e =>
      rw [hfit, except_bind_error] at h
      exact absurd h (by simp)
    | ok trip =>
      obtain ⟨st1, lg1, idx1⟩ := trip
      rw [hfit, except_bind_ok] at h
      dsimp only at h
      have hw0 : p.wd = 0 := hwd p (by simp)
      rw [hw0] at hfit
      have h1 := fit_frozen E sched ans st idx p.xs p.ys p.validation p.bs p.ne
        p.lr p.gn st1 lg1 idx1 hfit i hf
      have h2 := ih st1 idx1 stM idxM h (fun q hq => hwd q (by simp [hq])) i
        (by rw [h1.2]; exact hf)
      exact ⟨by rw [h2.1, h1.1], by rw [h2.2, h1.2]⟩

theorem transportFor_updateable (E : NumEnv) (st : MLPState) (u : List Bool)
    (i : Nat) (w : Mat) :
    transportFor E { st with updateable := u } i w = transportFor E st i w := rfl

theorem bdGo_updateable (E : NumEnv) (st : MLPState) (u : List Bool)
    (acts : List Mat) :
    ∀ (pairs : List (Nat × (Mat × ActTag))) (acc : List Mat),
      bdGo E { st with updateable := u } acts pairs acc =
        bdGo E st acts pairs acc := by
  intro pairs
  induction pairs with
  | nil => intro acc; rfl
  | cons p rest ih =>
    intro acc
    obtain ⟨i, w, f⟩ := p
    simp only [bdGo, transportFor_updateable]
    cases npDot (acc.headD []) (transportFor E st i w) with
    | error e => rfl
    | ok q =>
      simp only [except_bind_ok]
      exact ih _

theorem backwardDeltas_updateable (E : NumEnv) (st : MLPState) (u : List Bool)
    (acts : List Mat) (d : Mat) :
    backwardDeltas E { st with updateable := u } acts d =
      backwardDeltas E st acts d := by
  unfold backwardDeltas
  exact bdGo_updateable E st u acts _ [d]

/-- C2 corrected: with weight-decay rate 0, a layer whose updatable flag
is false has a bit-identical weight matrix before and after a `fit` call,
and after any number of `fit` calls, for every learning mode, schedule and
remaining hyperparameters; and the propagated deltas do not depend on the
updatable flags at all (frozen layers still receive and pass along their
delta).  With a nonzero decay rate the claim is false: `weight_decay`
shrinks the non-bias columns of every layer, frozen or not (see the
counterexample). -/
theorem claim_C2_frozen_layer (E : NumEnv) (sched : Nat → Bool) (ans : Bool)
    (st : MLPState) (idx : Nat) (xs ys : Mat) (val : Option (Mat × Mat))
    (bs ne : Nat) (lr gn : ℚ) (st' : MLPState) (lg : List LogEntry) (idx' : Nat)
    (ps : List FitArgs) (stM : MLPState) (idxM : Nat)
    (acts : List Mat) (d : Mat) (u : List Bool) (i : Nat)
    (hfit : MLP.fit E sched ans st idx xs ys val bs ne lr gn 0 = .ok (st', lg, idx'))
    (hmany : fitMany E sched ans ps st idx = .ok (stM, idxM))
    (hwd : ∀ p ∈ ps, p.wd = 0)
    (hf : st.updateable.getD i true = false) :
    st'.weights.getD i [] = st.weights.getD i [] ∧
    stM.weights.getD i [] = st.weights.getD i [] ∧
    backwardDeltas E { st with updateable := u } acts d =
      backwardDeltas E st acts d :=
  ⟨(fit_frozen E sched ans st idx xs ys val bs ne lr gn st' lg idx' hfit i hf).1,
   (fitMany_frozen E sched ans ps st idx stM idxM hmany hwd i hf).1,
   backwardDeltas_updateable E st u acts d⟩

/-- The frozen fixture after one decayed fit step: the non-bias column was
halved even though the layer is frozen. -/
def stF1 : MLPState :=
  { backward_weights := [], weights := [[[1, 4]]], updateable := [false],
    funcs := [.identity], loss := .mse, learning := "BP" }

/-- Counterexample to C2 as stated: with weight-decay rate `1/2`, one
`fit` call changes the frozen layer's weight matrix from `[[2, 4]]` to
`[[1, 4]]` — `weight_decay` does not consult the updatable flags. -/
theorem claim_C2_counterexample :
    stF0.updateable = [false] ∧
    MLP.fit E0 noInterrupt false stF0 2 [[1]] [[1]] none 1 1 1 0 (1 / 2) =
      .ok (stF1, [⟨1, 25 / 2, 1, "train-intermediate"⟩, ⟨1, 25 / 2, 1, "train"⟩], 2) ∧
    stF1.weights ≠ stF0.weights := by
  refine ⟨rfl, by with_unfolding_all rfl, by with_unfolding_all decide⟩

/-- Witness for the corrected C2 at a concrete frozen model. -/
theorem claim_C2_witness :
    stF0.weights.getD 0 [] = stF0.weights.getD 0 [] ∧
    stF0.weights.getD 0 [] = stF0.weights.getD 0 [] ∧
    backwardDeltas E0 { stF0 with updateable := [true] } [[[1]]] [[5]] =
      backwardDeltas E0 stF0 [[[1]]] [[5]] :=
  claim_C2_frozen_layer E0 noInterrupt false stF0 2 [[1]] [[1]] none 1 1 1 0
    stF0 [⟨1, 25 / 2, 1, "train-intermediate"⟩, ⟨1, 25 / 2, 1, "train"⟩] 2
    [⟨[[1]], [[1]], none, 1, 1, 1, 0, 0⟩] stF0 2 [[[1]]] [[5]] [true] 0
    (by with_unfolding_all rfl) (by with_unfolding_all rfl)
    (by intro p hp; rw [List.mem_singleton] at hp; subst hp; rfl)
    (by rfl)

/-! ### Claims C5 and C6: interactive cancellation -/

/-- `a` is a prefix of `b`. -/
def listPrefix {α : Type _} (a b : List α) : Prop := ∃ t, a ++ t = b

theorem listPrefix_refl {α : Type _} (l : List α) : listPrefix l l :=
  ⟨[], List.append_nil l⟩

theorem listPrefix_trans {α : Type _} {a b c : List α}
    (h1 : listPrefix a b) (h2 : listPrefix b c) : listPrefix a c := by
  obtain ⟨t1, ht1⟩ := h1
  obtain ⟨t2, ht2⟩ := h2
  exact ⟨t1 ++ t2, by rw [← List.append_assoc, ht1, ht2]⟩

theorem listPrefix_append {α : Type _} (a t : List α) : listPrefix a (a ++ t) :=
  ⟨t, rfl⟩

/-- The eager validation assertions of `fit`, as one test. -/
def validOk (xs : Mat) : Option (Mat × Mat) → Bool
  | none => true
  | some (xv, yv) => decide (xv.length = yv.length) && decide (colsOf xs = colsOf xv)

theorem fit_eq_fitGo (E : NumEnv) (sched : Nat → Bool) (ans : Bool)
    (st : MLPState) (idx : Nat) (xs ys : Mat) (val : Option (Mat × Mat))
    (bs ne : Nat) (lr gn wd : ℚ)
    (hlen : xs.length = ys.length) (hval : validOk xs val = true) :
    MLP.fit E sched ans st idx xs ys val bs ne lr gn wd =
      MLP.fitGo E sched ans ⟨xs, ys, val, bs, lr, gn, wd⟩ ne st idx := by
  unfold MLP.fit
  rw [if_neg (fun hc => hc hlen)]
  cases val with
  | none => rfl
  | some pv =>
    obtain ⟨xv, yv⟩ := pv
    simp only [validOk, Bool.and_eq_true, decide_eq_true_eq] at hval
    dsimp only
    rw [if_neg (fun hc => hc hval.1), if_neg (fun hc => hc hval.2)]

theorem batchStep_log (E : NumEnv) (cfg : TrainCfg) (fs : FitState) (a : Accum)
    (b : List Nat) (fs' : FitState) (a' : Accum)
    (h : trainBatchStep E cfg fs a b = .ok (fs', a')) :
    listPrefix fs.log fs'.log := by
  unfold trainBatchStep at h
  dsimp only at h
  cases hfw : MLP.forward E fs.st (selectRows cfg.xs b) with
  | error e =>
    rw [hfw, except_bind_error] at h
    exact absurd h (by simp)
  | ok p =>
    obtain ⟨acts, ps⟩ := p
    rw [hfw, except_bind_ok] at h
    dsimp only at h
    cases hbk : MLP.backward E fs.st acts
        (matMap (fun v => v / (b.length : ℚ))
          (lossPrime E fs.st.loss ps (selectRows cfg.ys b)))
        cfg.lr cfg.gn fs.rngIdx with
    | error e =>
      rw [hbk, except_bind_error] at h
      exact absurd h (by simp)
    | ok q =>
      obtain ⟨st1, idx1⟩ := q
      rw [hbk, except_bind_ok] at h
      injection h with h
      simp only [Prod.mk.injEq] at h
      obtain ⟨h1, -⟩ := h
      subst h1
      exact listPrefix_append _ _

theorem trainLoop_mono (E : NumEnv) (sched : Nat → Bool) (cfg : TrainCfg) :
    ∀ (bs : List (List Nat)) (fs : FitState) (a : Accum)
      (fs' : FitState) (a' : Accum),
      trainLoop E sched cfg bs fs a = .ok (fs', a') →
      listPrefix fs.log fs'.log := by
  intro bs
  induction bs with
  | nil =>
    intro fs a fs' a' h
    simp only [trainLoop] at h
    injection h with h
    simp only [Prod.mk.injEq] at h
    rw [← h.1]
    exact listPrefix_refl _
  | cons b rest ih =>
    intro fs a fs' a' h
    simp only [trainLoop] at h
    by_cases hs : sched fs.tick
    · rw [if_pos hs] at h
      exact absurd h (by simp)
    · rw [if_neg hs] at h
      cases hstep : trainBatchStep E cfg { fs with tick := fs.tick + 1 } a b with
      | error e =>
        rw [hstep] at h
        exact absurd h (by simp)
      | ok q =>
        obtain ⟨fs1, a1⟩ := q
        rw [hstep] at h
        exact listPrefix_trans
          (batchStep_log E cfg { fs with tick := fs.tick + 1 } a b fs1 a1 hstep)
          (ih fs1 a1 fs' a' h)

theorem trainLoop_noInt (E : NumEnv) (cfg : TrainCfg) :
    ∀ (bs : List (List Nat)) (fs : FitState) (a : Accum) (s : FitState),
      trainLoop E noInterrupt cfg bs fs a ≠ .intr s := by
  intro bs
  induction bs with
  | nil =>
    intro fs a s h
    simp only [trainLoop] at h
    exact absurd h (by simp)
  | cons b rest ih =>
    intro fs a s h
    simp only [trainLoop, noInterrupt, if_neg] at h
    cases hstep : trainBatchStep E cfg { fs with tick := fs.tick + 1 } a b with
    | error e => rw [hstep] at h; exact absurd h (by simp)
    | ok q =>
      obtain ⟨fs1, a1⟩ := q
      rw [hstep] at h
      exact ih fs1 a1 s h

theorem trainLoop_agree (E : NumEnv) (sched : Nat → Bool) (cfg : TrainCfg) :
    ∀ (bs : List (List Nat)) (fs : FitState) (a : Accum)
      (r : FitState × Accum),
      trainLoop E sched cfg bs fs a = .ok r →
      trainLoop E noInterrupt cfg bs fs a = .ok r := by
  intro bs
  induction bs with
  | nil => intro fs a r h; exact h
  | cons b rest ih =>
    intro fs a r h
    simp only [trainLoop] at h
    by_cases hs : sched fs.tick
    · rw [if_pos hs] at h
      exact absurd h (by simp)
    · rw [if_neg hs] at h
      simp only [trainLoop, noInterrupt, if_neg]
      cases hstep : trainBatchStep E cfg { fs with tick := fs.tick + 1 } a b with
      | error e =>
        rw [hstep] at h
        exact absurd h (by simp)
      | ok q =>
        obtain ⟨fs1, a1⟩ := q
        rw [hstep] at h
        exact ih fs1 a1 r h

theorem trainLoop_logPre (E : NumEnv) (sched : Nat → Bool) (cfg : TrainCfg) :
    ∀ (bs : List (List Nat)) (fs : FitState) (a : Accum) (s : FitState)
      (fs' : FitState) (a' : Accum),
      trainLoop E sched cfg bs fs a = .intr s →
      trainLoop E noInterrupt cfg bs fs a = .ok (fs', a') →
      listPrefix s.log fs'.log := by
  intro bs
  induction bs with
  | nil =>
    intro fs a s fs' a' h1 h2
    simp only [trainLoop] at h1
    exact absurd h1 (by simp)
  | cons b rest ih =>
    intro fs a s fs' a' h1 h2
    simp only [trainLoop] at h1
    simp only [trainLoop, noInterrupt, if_neg] at h2
    by_cases hs : sched fs.tick
    · rw [if_pos hs] at h1
      injection h1 with h1
      subst h1
      cases hstep : trainBatchStep E cfg { fs with tick := fs.tick + 1 } a b with
      | error e =>
        rw [hstep] at h2
        exact absurd h2 (by simp)
      | ok q =>
        obtain ⟨fs1, a1⟩ := q
        rw [hstep] at h2
        exact listPrefix_trans
          (batchStep_log E cfg { fs with tick := fs.tick + 1 } a b fs1 a1 hstep)
          (trainLoop_mono E noInterrupt cfg rest fs1 a1 fs' a' h2)
    · rw [if_neg hs] at h1
      cases hstep : trainBatchStep E cfg { fs with tick := fs.tick + 1 } a b with
      | error e =>
        rw [hstep] at h1
        exact absurd h1 (by simp)
      | ok q =>
        obtain ⟨fs1, a1⟩ := q
        rw [hstep] at h1
        rw [hstep] at h2
        exact ih fs1 a1 s fs' a' h1 h2

theorem epochBody_ok_log (E : NumEnv) (sched : Nat → Bool) (cfg : TrainCfg)
    (fs fs1 : FitState) (a : Accum) (fs3 : FitState)
    (htl : trainLoop E sched cfg (batchLists cfg.ys.length cfg.bs) fs ⟨0, 0, 0⟩ =
      .ok (fs1, a))
    (h : epochBody E sched cfg fs = .ok fs3) :
    listPrefix fs1.log fs3.log := by
  unfold epochBody at h
  by_cases hbs : cfg.bs = 0
  · rw [if_pos hbs] at h
    exact absurd h (by simp)
  · rw [if_neg hbs, htl] at h
    dsimp only at h
    cases hval : cfg.validation with
    | none =>
      rw [hval] at h
      dsimp only at h
      injection h with h
      subst h
      exact listPrefix_append _ _
    | some pv =>
      obtain ⟨xv, yv⟩ := pv
      rw [hval] at h
      dsimp only at h
      by_cases hyv : 0 < yv.length
      · rw [if_pos hyv] at h
        cases hvl : validLoop E fs1.st xv yv (batchLists yv.length cfg.bs) (0, 0) with
        | error e =>
          rw [hvl] at h
          exact absurd h (by simp)
        | ok la =>
          obtain ⟨vl, va⟩ := la
          rw [hvl] at h
          dsimp only at h
          injection h with h
          subst h
          exact listPrefix_trans (listPrefix_append _ _) (listPrefix_append _ _)
      · rw [if_neg hyv] at h
        injection h with h
        subst h
        exact listPrefix_append _ _

theorem epochBody_mono (E : NumEnv) (sched : Nat → Bool) (cfg : TrainCfg)
    (fs fs3 : FitState) (h : epochBody E sched cfg fs = .ok fs3) :
    listPrefix fs.log fs3.log := by
  have h' := h
  unfold epochBody at h'
  by_cases hbs : cfg.bs = 0
  · rw [if_pos hbs] at h'
    exact absurd h' (by simp)
  · rw [if_neg hbs] at h'
    cases htl : trainLoop E sched cfg (batchLists cfg.ys.length cfg.bs) fs ⟨0, 0, 0⟩ with
    | intr s =>
      rw [htl] at h'
      exact absurd h' (by simp)
    | err e =>
      rw [htl] at h'
      exact absurd h' (by simp)
    | ok q =>
      obtain ⟨fs1, a⟩ := q
      exact listPrefix_trans
        (trainLoop_mono E sched cfg _ fs ⟨0, 0, 0⟩ fs1 a htl)
        (epochBody_ok_log E sched cfg fs fs1 a fs3 htl h)

theorem epochBody_agree (E : NumEnv) (sched : Nat → Bool) (cfg : TrainCfg)
    (fs fs3 : FitState) (h : epochBody E sched cfg fs = .ok fs3) :
    epochBody E noInterrupt cfg fs = .ok fs3 := by
  unfold epochBody at h
  unfold epochBody
  by_cases hbs : cfg.bs = 0
  · rw [if_pos hbs] at h
    exact absurd h (by simp)
  · rw [if_neg hbs] at h
    rw [if_neg hbs]
    cases htl : trainLoop E sched cfg (batchLists cfg.ys.length cfg.bs) fs ⟨0, 0, 0⟩ with
    | intr s =>
      rw [htl] at h
      exact absurd h (by simp)
    | err e =>
      rw [htl] at h
      exact absurd h (by simp)
    | ok q =>
      obtain ⟨fs1, a⟩ := q
      rw [htl] at h
      rw [trainLoop_agree E sched cfg _ fs ⟨0, 0, 0⟩ (fs1, a) htl]
      exact h

theorem epochBody_noInt (E : NumEnv) (cfg : TrainCfg) (fs s : FitState) :
    epochBody E noInterrupt cfg fs ≠ .intr s := by
  intro h
  unfold epochBody at h
  by_cases hbs : cfg.bs = 0
  · rw [if_pos hbs] at h
    exact absurd h (by simp)
  · rw [if_neg hbs] at h
    cases htl : trainLoop E noInterrupt cfg (batchLists cfg.ys.length cfg.bs) fs ⟨0, 0, 0⟩ with
    | intr s1 => exact trainLoop_noInt E cfg _ fs ⟨0, 0, 0⟩ s1 htl
    | err e =>
      rw [htl] at h
      exact absurd h (by simp)
    | ok q =>
      obtain ⟨fs1, a⟩ := q
      rw [htl] at h
      dsimp only at h
      cases hval : cfg.validation with
      | none =>
        rw [hval] at h
        exact absurd h (by simp)
      | some pv =>
        obtain ⟨xv, yv⟩ := pv
        rw [hval] at h
        dsimp only at h
        by_cases hyv : 0 < yv.length
        · rw [if_pos hyv] at h
          cases hvl : validLoop E fs1.st xv yv (batchLists yv.length cfg.bs) (0, 0) with
          | error e =>
            rw [hvl] at h
            exact absurd h (by simp)
          | ok la =>
            obtain ⟨vl, va⟩ := la
            rw [hvl] at h
            exact absurd h (by simp)
        · rw [if_neg hyv] at h
          exact absurd h (by simp)

theorem epochBody_logPre (E : NumEnv) (sched : Nat → Bool) (cfg : TrainCfg)
    (fs s fs3 : FitState)
    (h1 : epochBody E sched cfg fs = .intr s)
    (h2 : epochBody E noInterrupt cfg fs = .ok fs3) :
    listPrefix s.log fs3.log := by
  unfold epochBody at h1
  by_cases hbs : cfg.bs = 0
  · rw [if_pos hbs] at h1
    exact absurd h1 (by simp)
  · rw [if_neg hbs] at h1
    cases htl1 : trainLoop E sched cfg (batchLists cfg.ys.length cfg.bs) fs ⟨0, 0, 0⟩ with
    | err e =>
      rw [htl1] at h1
      exact absurd h1 (by simp)
    | ok q =>
      obtain ⟨fs1, a⟩ := q
      rw [htl1] at h1
      dsimp only at h1
      cases hval : cfg.validation with
      | none =>
        rw [hval] at h1
        exact absurd h1 (by simp)
      | some pv =>
        obtain ⟨xv, yv⟩ := pv
        rw [hval] at h1
        dsimp only at h1
        by_cases hyv : 0 < yv.length
        · rw [if_pos hyv] at h1
          cases hvl : validLoop E fs1.st xv yv (batchLists yv.length cfg.bs) (0, 0) with
          | error e =>
            rw [hvl] at h1
            exact absurd h1 (by simp)
          | ok la =>
            obtain ⟨vl, va⟩ := la
            rw [hvl] at h1
            exact absurd h1 (by simp)
        · rw [if_neg hyv] at h1
          exact absurd h1 (by simp)
    | intr s1 =>
      rw [htl1] at h1
      injection h1 with h1
      subst h1
      have h2u := h2
      unfold epochBody at h2u
      rw [if_neg hbs] at h2u
      cases htl2 : trainLoop E noInterrupt cfg (batchLists cfg.ys.length cfg.bs) fs ⟨0, 0, 0⟩ with
      | intr s2 => exact absurd htl2 (trainLoop_noInt E cfg _ fs ⟨0, 0, 0⟩ s2)
      | err e =>
        rw [htl2] at h2u
        exact absurd h2u (by simp)
      | ok q =>
        obtain ⟨fs1, a⟩ := q
        exact listPrefix_trans
          (trainLoop_logPre E sched cfg _ fs ⟨0, 0, 0⟩ _ fs1 a htl1 htl2)
          (epochBody_ok_log E noInterrupt cfg fs fs1 a fs3 htl2 h2)

theorem epochLoop_mono (E : NumEnv) (sched : Nat → Bool) (cfg : TrainCfg) :
    ∀ (es : List Nat) (fs fs' : FitState),
      epochLoop E sched cfg es fs = .ok fs' →
      listPrefix fs.log fs'.log := by
  intro es
  induction es with
  | nil =>
    intro fs fs' h
    simp only [epochLoop] at h
    injection h with h
    subst h
    exact listPrefix_refl _
  | cons e rest ih =>
    intro fs fs' h
    simp only [epochLoop] at h
    cases hb : epochBody E sched cfg fs with
    | ok fs3 =>
      rw [hb] at h
      exact listPrefix_trans (epochBody_mono E sched cfg fs fs3 hb) (ih fs3 fs' h)
    | intr s =>
      rw [hb] at h
      exact absurd h (by simp)
    | err e2 =>
      rw [hb] at h
      exact absurd h (by simp)

theorem epochLoop_agree (E : NumEnv) (sched : Nat → Bool) (cfg : TrainCfg) :
    ∀ (es : List Nat) (fs fs' : FitState),
      epochLoop E sched cfg es fs = .ok fs' →
      epochLoop E noInterrupt cfg es fs = .ok fs' := by
  intro es
  induction es with
  | nil => intro fs fs' h; exact h
  | cons e rest ih =>
    intro fs fs' h
    simp only [epochLoop] at h
    simp only [epochLoop]
    cases hb : epochBody E sched cfg fs with
    | ok fs3 =>
      rw [hb] at h
      rw [epochBody_agree E sched cfg fs fs3 hb]
      exact ih fs3 fs' h
    | intr s =>
      rw [hb] at h
      exact absurd h (by simp)
    | err e2 =>
      rw [hb] at h
      exact absurd h (by simp)

theorem epochLoop_noInt (E : NumEnv) (cfg : TrainCfg) :
    ∀ (es : List Nat) (fs s : FitState),
      epochLoop E noInterrupt cfg es fs ≠ .intr s := by
  intro es
  induction es with
  | nil =>
    intro fs s h
    simp only [epochLoop] at h
    exact absurd h (by simp)
  | cons e rest ih =>
    intro fs s h
    simp only [epochLoop] at h
    cases hb : epochBody E noInterrupt cfg fs with
    | ok fs3 =>
      rw [hb] at h
      exact ih fs3 s h
    | intr s1 => exact epochBody_noInt E cfg fs s1 hb
    | err e2 =>
      rw [hb] at h
      exact absurd h (by simp)

theorem epochLoop_logPre (E : NumEnv) (sched : Nat → Bool) (cfg : TrainCfg) :
    ∀ (es : List Nat) (fs s fs' : FitState),
      epochLoop E sched cfg es fs = .intr s →
      epochLoop E noInterrupt cfg es fs = .ok fs' →
      listPrefix s.log fs'.log := by
  intro es
  induction es with
  | nil =>
    intro fs s fs' h1 h2
    simp only [epochLoop] at h1
    exact absurd h1 (by simp)
  | cons e rest ih =>
    intro fs s fs' h1 h2
    simp only [epochLoop] at h1
    simp only [epochLoop] at h2
    cases hb1 : epochBody E sched cfg fs with
    | ok fs3 =>
      rw [hb1] at h1
      rw [epochBody_agree E sched cfg fs fs3 hb1] at h2
      exact ih fs3 s fs' h1 h2
    | intr s1 =>
      rw [hb1] at h1
      injection h1 with h1
      subst h1
      cases hb2 : epochBody E noInterrupt cfg fs with
      | ok fs3 =>
        rw [hb2] at h2
        exact listPrefix_trans
          (epochBody_logPre E sched cfg fs _ fs3 hb1 hb2)
          (epochLoop_mono E noInterrupt cfg rest fs3 fs' h2)
      | intr s2 => exact absurd hb2 (epochBody_noInt E cfg fs s2)
      | err e2 =>
        rw [hb2] at h2
        exact absurd h2 (by simp)
    | err e2 =>
      rw [hb1] at h1
      exact absurd h1 (by simp)

/-- C5 corrected: when an interrupt fires during the epoch loop,
confirming the `terminate?` prompt re-raises the `KeyboardInterrupt` out
of `fit` — no log is returned and `fit_log` is never assigned; it is
declining that makes `fit` return, with the log accumulated up to the
interrupt.  (The claim as stated — confirm returns the accumulated log —
is refuted by the counterexample.) -/
theorem claim_C5_confirm_discards_log (E : NumEnv) (sched : Nat → Bool)
    (st : MLPState) (idx : Nat) (xs ys : Mat) (val : Option (Mat × Mat))
    (bs ne : Nat) (lr gn wd : ℚ) (s : FitState)
    (hlen : xs.length = ys.length) (hval : validOk xs val = true)
    (hint : epochLoop E sched ⟨xs, ys, val, bs, lr, gn, wd⟩ (List.range ne)
      ⟨st, idx, 0, [], 0⟩ = .intr s) :
    MLP.fit E sched true st idx xs ys val bs ne lr gn wd =
      .error .keyboardInterrupt ∧
    MLP.fit E sched false st idx xs ys val bs ne lr gn wd =
      .ok (s.st, s.log, s.rngIdx) := by
  rw [fit_eq_fitGo E sched true st idx xs ys val bs ne lr gn wd hlen hval,
    fit_eq_fitGo E sched false st idx xs ys val bs ne lr gn wd hlen hval]
  unfold MLP.fitGo
  rw [hint]
  exact ⟨rfl, rfl⟩

/-- Counterexample to C5 as stated: on a confirmed cancellation `fit`
raises `KeyboardInterrupt` — it does not return the accumulated log. -/
theorem claim_C5_counterexample :
    MLP.fit E0 sched0 true stBP0 2 [[1]] [[1]] none 1 1 1 0 0 =
      .error .keyboardInterrupt := by
  with_unfolding_all rfl

/-- Witness for the corrected C5 at a concrete interrupted run. -/
theorem claim_C5_witness :
    MLP.fit E0 sched0 true stBP0 2 [[1]] [[1]] none 1 1 1 0 0 =
      Except.error PyErr.keyboardInterrupt ∧
    MLP.fit E0 sched0 false stBP0 2 [[1]] [[1]] none 1 1 1 0 0 =
      Except.ok (stBP0, [], 2) :=
  claim_C5_confirm_discards_log E0 sched0 stBP0 2 [[1]] [[1]] none 1 1 1 0 0
    fsInit rfl rfl (by with_unfolding_all rfl)

/-- C6 corrected: declining the cancellation does not resume the epoch
loop — `fit` returns at once with the accumulated log — but that log is a
valid prefix of the uninterrupted run's log (and the two logs coincide
when no interrupt fired). -/
theorem claim_C6_decline_prefix (E : NumEnv) (sched : Nat → Bool) (ans2 : Bool)
    (st : MLPState) (idx : Nat) (xs ys : Mat) (val : Option (Mat × Mat))
    (bs ne : Nat) (lr gn wd : ℚ)
    (st1 : MLPState) (log1 : List LogEntry) (i1 : Nat)
    (st2 : MLPState) (log2 : List LogEntry) (i2 : Nat)
    (h1 : MLP.fit E sched false st idx xs ys val bs ne lr gn wd =
      .ok (st1, log1, i1))
    (h2 : MLP.fit E noInterrupt ans2 st idx xs ys val bs ne lr gn wd =
      .ok (st2, log2, i2)) :
    listPrefix log1 log2 := by
  have hlen : xs.length = ys.length := by
    by_contra hc
    unfold MLP.fit at h1
    rw [if_pos hc] at h1
    exact absurd h1 (by simp)
  have hval : validOk xs val = true := by
    cases hv : val with
    | none => rfl
    | some pv =>
      obtain ⟨xv, yv⟩ := pv
      subst hv
      unfold MLP.fit at h1
      rw [if_neg (fun hc => hc hlen)] at h1
      dsimp only at h1
      by_cases hc1 : xv.length ≠ yv.length
      · rw [if_pos hc1] at h1
        exact absurd h1 (by simp)
      · by_cases hc2 : colsOf xs ≠ colsOf xv
        · rw [if_neg hc1, if_pos hc2] at h1
          exact absurd h1 (by simp)
        · push_neg at hc1 hc2
          simp only [validOk, Bool.and_eq_true, decide_eq_true_eq]
          exact ⟨hc1, hc2⟩
  rw [fit_eq_fitGo E sched false st idx xs ys val bs ne lr gn wd hlen hval] at h1
  rw [fit_eq_fitGo E noInterrupt ans2 st idx xs ys val bs ne lr gn wd hlen hval] at h2
  unfold MLP.fitGo at h1 h2
  cases hel1 : epochLoop E sched ⟨xs, ys, val, bs, lr, gn, wd⟩ (List.range ne)
      ⟨st, idx, 0, [], 0⟩ with
  | err e =>
    rw [hel1] at h1
    exact absurd h1 (by simp)
  | ok fs =>
    rw [hel1] at h1
    injection h1 with h1
    simp only [Prod.mk.injEq] at h1
    obtain ⟨-, hlg1, -⟩ := h1
    rw [epochLoop_agree E sched ⟨xs, ys, val, bs, lr, gn, wd⟩ (List.range ne)
      ⟨st, idx, 0, [], 0⟩ fs hel1] at h2
    injection h2 with h2
    simp only [Prod.mk.injEq] at h2
    obtain ⟨-, hlg2, -⟩ := h2
    rw [← hlg1, ← hlg2]
    exact listPrefix_refl _
  | intr fs =>
    rw [hel1] at h1
    dsimp only at h1
    injection h1 with h1
    simp only [Prod.mk.injEq] at h1
    obtain ⟨-, hlg1, -⟩ := h1
    cases hel2 : epochLoop E noInterrupt ⟨xs, ys, val, bs, lr, gn, wd⟩
        (List.range ne) ⟨st, idx, 0, [], 0⟩ with
    | err e =>
      rw [hel2] at h2
      exact absurd h2 (by simp)
    | intr s2 =>
      exact absurd hel2 (epochLoop_noInt E ⟨xs, ys, val, bs, lr, gn, wd⟩
        (List.range ne) ⟨st, idx, 0, [], 0⟩ s2)
    | ok fs2 =>
      rw [hel2] at h2
      injection h2 with h2
      simp only [Prod.mk.injEq] at h2
      obtain ⟨-, hlg2, -⟩ := h2
      rw [← hlg1, ← hlg2]
      exact epochLoop_logPre E sched ⟨xs, ys, val, bs, lr, gn, wd⟩
        (List.range ne) ⟨st, idx, 0, [], 0⟩ fs fs2 hel1 hel2

/-- Counterexample to C6 as stated: interrupting before the first batch
and declining does not resume training — `fit` returns at once with the
empty log, while the uninterrupted run's log has two records, so the
final entries differ (with the same deterministic stream `E0.rng`). -/
theorem claim_C6_counterexample :
    MLP.fit E0 sched0 false stBP0 2 [[1]] [[1]] none 1 1 1 0 0 =
      .ok (stBP0, [], 2) ∧
    MLP.fit E0 noInterrupt false stBP0 2 [[1]] [[1]] none 1 1 1 0 0 =
      .ok (stB1, [⟨1, 25 / 2, 1, "train-intermediate"⟩, ⟨1, 25 / 2, 1, "train"⟩], 2) ∧
    ([] : List LogEntry).getLast? ≠
      ([⟨1, 25 / 2, 1, "train-intermediate"⟩,
        (⟨1, 25 / 2, 1, "train"⟩ : LogEntry)]).getLast? := by
  refine ⟨by with_unfolding_all rfl, by with_unfolding_all rfl,
    by with_unfolding_all decide⟩

/-- Witness for the corrected C6 at a concrete interrupted run. -/
theorem claim_C6_witness :
    listPrefix ([] : List LogEntry)
      [⟨1, 25 / 2, 1, "train-intermediate"⟩, ⟨1, 25 / 2, 1, "train"⟩] :=
  claim_C6_decline_prefix E0 sched0 false stBP0 2 [[1]] [[1]] none 1 1 1 0 0
    stBP0 [] 2 stB1
    [⟨1, 25 / 2, 1, "train-intermediate"⟩, ⟨1, 25 / 2, 1, "train"⟩] 2
    (by with_unfolding_all rfl) (by with_unfolding_all rfl)

/-! ### Claim C8: forward and predict shapes -/

theorem batchStarts_zero (bs : Nat) (hbs : 0 < bs) : batchStarts 0 bs = [] := by
  unfold batchStarts
  rw [Nat.zero_add, Nat.div_eq_of_lt (by omega)]
  rfl

theorem batchStarts_cons (N bs : Nat) (hbs : 0 < bs) (hN : 0 < N) :
    batchStarts N bs = 0 :: (batchStarts (N - bs) bs).map (· + bs) := by
  unfold batchStarts
  have h1 : (N + bs - 1) / bs = (N - 1) / bs + 1 := by
    have : N + bs - 1 = (N - 1) + bs := by omega
    rw [this, Nat.add_div_right _ hbs]
  rw [h1, List.range_succ_eq_map]
  simp only [List.map_cons, Nat.zero_mul, List.map_map]
  congr 1
  by_cases hNbs : N ≤ bs
  · have h2 : N - bs = 0 := by omega
    have h3 : (N - 1) / bs = 0 := Nat.div_eq_of_lt (by omega)
    rw [h2, h3, show (0 + bs - 1) / bs = 0 from Nat.div_eq_of_lt (by omega)]
    rfl
  · have h2 : N - bs + bs - 1 = N - 1 := by omega
    rw [h2]
    apply List.map_congr_left
    intro q _
    simp only [Function.comp]
    rw [Nat.succ_eq_add_one]
    ring

theorem batchIdxList_shift (N bs i : Nat) :
    batchIdxList N bs (i + bs) = (batchIdxList (N - bs) bs i).map (· + bs) := by
  unfold batchIdxList
  have h1 : N - (i + bs) = N - bs - i := by omega
  rw [h1, Nat.add_comm i bs]
  rw [← List.map_add_range' bs i (min (N - bs - i) bs) 1]
  apply List.map_congr_left
  intro q _
  omega

theorem batchLists_flatten (bs : Nat) (hbs : 0 < bs) :
    ∀ N, (batchLists N bs).flatten = List.range N := by
  intro N
  induction N using Nat.strong_induction_on with
  | _ N ih =>
    by_cases hN : N = 0
    · subst hN
      unfold batchLists
      rw [batchStarts_zero bs hbs]
      rfl
    · have hN' : 0 < N := Nat.pos_of_ne_zero hN
      unfold batchLists
      rw [batchStarts_cons N bs hbs hN']
      simp only [List.map_cons, List.map_map, List.flatten_cons]
      have hbatch0 : batchIdxList N bs 0 = List.range' 0 (min N bs) := by
        unfold batchIdxList
        rw [Nat.sub_zero]
      have hcomp : (batchStarts (N - bs) bs).map (batchIdxList N bs ∘ (· + bs)) =
          (batchStarts (N - bs) bs).map
            ((List.map (· + bs)) ∘ batchIdxList (N - bs) bs) := by
        apply List.map_congr_left
        intro i hi
        simp only [Function.comp]
        by_cases hle : bs ≤ N
        · exact batchIdxList_shift N bs i
        · exfalso
          rw [show N - bs = 0 from by omega, batchStarts_zero bs hbs] at hi
          exact absurd hi (List.not_mem_nil i)
      rw [hcomp]
      have hflat : ((batchStarts (N - bs) bs).map
          ((List.map (· + bs)) ∘ batchIdxList (N - bs) bs)).flatten =
          ((batchLists (N - bs) bs).flatten).map (· + bs) := by
        unfold batchLists
        rw [List.map_flatten]
        congr 1
        rw [List.map_map]
      rw [hflat, ih (N - bs) (by omega)]
      have hrng : (List.range (N - bs)).map (· + bs) = List.range' bs (N - bs) := by
        rw [List.range_eq_range']
        have h5 := List.map_add_range' bs 0 (N - bs) 1
        rw [Nat.add_zero] at h5
        rw [← h5]
        apply List.map_congr_left
        intro q _
        omega
      rw [hbatch0, hrng]
      by_cases hle : bs ≤ N
      · have hmin : min N bs = bs := by omega
        rw [hmin]
        have h6 := List.range'_append 0 bs (N - bs) 1
        simp only [Nat.one_mul, Nat.zero_add] at h6
        rw [h6, List.range_eq_range']
        congr 1
        omega
      · have hmin : min N bs = N := by omega
        have h0 : N - bs = 0 := by omega
        rw [hmin, h0]
        simp [List.range_eq_range']

theorem batchLists_mem_lt (N bs : Nat) (hbs : 0 < bs) (bidx : List Nat)
    (hmem : bidx ∈ batchLists N bs) (j : Nat) (hj : j ∈ bidx) : j < N := by
  have hfl : j ∈ (batchLists N bs).flatten := List.mem_flatten.mpr ⟨bidx, hmem, hj⟩
  rw [batchLists_flatten bs hbs N] at hfl
  exact List.mem_range.mp hfl

theorem batchStarts_lt (N bs : Nat) (hbs : 0 < bs) (i : Nat)
    (hi : i ∈ batchStarts N bs) : i < N := by
  unfold batchStarts at hi
  simp only [List.mem_map, List.mem_range] at hi
  obtain ⟨q, hq, rfl⟩ := hi
  by_cases hN : N = 0
  · subst hN
    rw [Nat.zero_add, Nat.div_eq_of_lt (by omega)] at hq
    omega
  · have h1 : q + 1 ≤ (N + bs - 1) / bs := hq
    have h2 : (q + 1) * bs ≤ N + bs - 1 := (Nat.le_div_iff_mul_le hbs).mp h1
    have h3 : q * bs + bs ≤ N + bs - 1 := by
      rw [add_mul, one_mul] at h2
      exact h2
    omega

theorem batchLists_nonempty (N bs : Nat) (hbs : 0 < bs) (bidx : List Nat)
    (hmem : bidx ∈ batchLists N bs) : 0 < bidx.length := by
  unfold batchLists at hmem
  simp only [List.mem_map] at hmem
  obtain ⟨i, hi, rfl⟩ := hmem
  have hlt := batchStarts_lt N bs hbs i hi
  unfold batchIdxList
  rw [List.length_range']
  omega

theorem selectRows_rect (xs : Mat) (N D : Nat) (hxs : Rect xs N D)
    (idxs : List Nat) (hidx : ∀ j ∈ idxs, j < N) :
    Rect (selectRows xs idxs) idxs.length D := by
  refine ⟨by simp [selectRows], ?_⟩
  intro r hr
  simp only [selectRows, List.mem_map] at hr
  obtain ⟨j, hj, rfl⟩ := hr
  have hjl : j < xs.length := by rw [hxs.1]; exact hidx j hj
  rw [List.getD_eq_getElem xs [] hjl]
  exact hxs.2 _ (List.getElem_mem hjl)

/-- The per-layer shape discipline of a weight/activation chain: each
weight matrix is `o × (d + 1)` for the incoming width `d`, threading to a
final width `e`. -/
def ChainRect : List (Mat × ActTag) → Nat → Nat → Prop
  | [], d, e => d = e
  | (w, _) :: rest, d, e => ∃ o, 0 < o ∧ Rect w o (d + 1) ∧ ChainRect rest o e

theorem forwardGo_shape (E : NumEnv) (b : Nat) (hb : 0 < b) :
    ∀ (pairs : List (Mat × ActTag)) (d e : Nat), ChainRect pairs d e →
      pairs ≠ [] →
      ∀ (acts : List Mat) (zOpt : Option Mat), Rect (acts.getLastD []) b d →
        ∃ acts' z, MLP.forwardGo E pairs acts zOpt = .ok (acts', z) ∧
          Rect z b e := by
  intro pairs
  induction pairs with
  | nil => intro d e _ hne; exact absurd rfl hne
  | cons p rest ih =>
    intro d e hchain _ acts zOpt hlast
    obtain ⟨w, f⟩ := p
    obtain ⟨o, ho, hw, hrest⟩ := hchain
    have hx : Rect (add_bias (acts.getLastD [])) b (d + 1) :=
      rect_add_bias _ b d hlast
    have htr : Rect (transpose w) (d + 1) o := rect_transpose w o (d + 1) hw ho
    have hdot := npDot_conform (add_bias (acts.getLastD [])) (transpose w)
      b (d + 1) o hx hb htr
    have hz : Rect (matMap (actF E f) (matmul (add_bias (acts.getLastD []))
        (transpose w))) b o :=
      rect_matMap _ _ b o (rect_matmul _ _ b (d + 1) o hx htr (by omega))
    simp only [MLP.forwardGo]
    rw [hdot, except_bind_ok]
    cases rest with
    | nil =>
      simp only [ChainRect] at hrest
      subst hrest
      exact ⟨_, _, rfl, hz⟩
    | cons q rest' =>
      have hlast' : Rect ((acts ++ [matMap (actF E f)
          (matmul (add_bias (acts.getLastD [])) (transpose w))]).getLastD []) b o := by
        rw [List.getLastD_concat]
        exact hz
      exact ih o e hrest (by simp) _ _ hlast'

theorem forward_shape (E : NumEnv) (st : MLPState) (xs : Mat) (b d e : Nat)
    (hb : 0 < b) (hchain : ChainRect (st.weights.zip st.funcs) d e)
    (hne : st.weights.zip st.funcs ≠ []) (hxs : Rect xs b d) :
    ∃ acts z, MLP.forward E st xs = .ok (acts, z) ∧ Rect z b e := by
  unfold MLP.forward
  exact forwardGo_shape E b hb (st.weights.zip st.funcs) d e hchain hne [xs] none hxs

theorem pseudo_inverse_rect (E : NumEnv) (hinv : InvShapePreserving E)
    (w : Mat) (m n : Nat) (hw : Rect w m n) (hm : 0 < m) (hn : 0 < n) :
    Rect (pseudo_inverse E w) n m := by
  have hrows : w.length = m := hw.1
  have hcols : colsOf w = n := colsOf_rect w m n hw hm
  have htr : Rect (transpose w) n m := rect_transpose w m n hw hm
  unfold pseudo_inverse
  rw [hrows, hcols]
  by_cases hmn : m ≤ n
  · rw [if_pos hmn]
    have h1 : Rect (matmul w (transpose w)) m m := rect_matmul w _ m n m hw htr hn
    have h2 : Rect (matAdd (matmul w (transpose w)) (matScale (1 / 1000) (eye m))) m m :=
      rect_matZipWith _ _ _ m m h1 (rect_matScale _ _ m m (rect_eye m))
    exact rect_matmul _ _ n m m htr (hinv _ m m h2) hm
  · rw [if_neg hmn]
    have h1 : Rect (matmul (transpose w) w) n n := rect_matmul _ w n m n htr hw hm
    have h2 : Rect (matAdd (matmul (transpose w) w) (matScale (1 / 1000) (eye n))) n n :=
      rect_matZipWith _ _ _ n n h1 (rect_matScale _ _ n n (rect_eye n))
    exact rect_matmul _ _ n n m (hinv _ n n h2) htr hn

theorem mkLayer_shape (E : NumEnv) (hinv : InvShapePreserving E)
    (learning : String) (ch_in ch_out idx : Nat) (hch : 0 < ch_in)
    (ho : 0 < ch_out) (w : Mat) (bOpt : Option Mat) (idx1 : Nat)
    (h : mkLayer E learning ch_in ch_out idx = .ok (w, bOpt, idx1)) :
    Rect w ch_out (ch_in + 1) := by
  have hxav : Rect (normalize_xavier (randnMat E.rng idx ch_out (ch_in + 1))
      (E.sqrt ((ch_out : ℚ) + (ch_in : ℚ)))) ch_out (ch_in + 1) :=
    rect_normalize_xavier _ _ _ _ (rect_randnMat E.rng idx ch_out (ch_in + 1))
  unfold mkLayer at h
  dsimp only at h
  by_cases hBP : learning = "BP"
  · rw [if_pos hBP] at h
    simp only [Except.ok.injEq, Prod.mk.injEq] at h
    obtain ⟨hw, -, -⟩ := h
    rw [← hw]
    exact hxav
  · rw [if_neg hBP] at h
    by_cases hPI : learning = "PI"
    · rw [if_pos hPI] at h
      simp only [Except.ok.injEq, Prod.mk.injEq] at h
      obtain ⟨hw, -, -⟩ := h
      rw [← hw]
      exact hxav
    · rw [if_neg hPI] at h
      by_cases hFA : learning = "FA"
      · rw [if_pos hFA] at h
        simp only [Except.ok.injEq, Prod.mk.injEq] at h
        obtain ⟨hw, -, -⟩ := h
        rw [← hw]
        exact rect_zeroNonBias _ _ _ hxav
      · rw [if_neg hFA] at h
        by_cases hW : learning = "FA-PI-W"
        · rw [if_pos hW] at h
          simp only [Except.ok.injEq, Prod.mk.injEq] at h
          obtain ⟨hw, -, -⟩ := h
          rw [← hw]
          exact hxav
        · rw [if_neg hW] at h
          by_cases hB : learning = "FA-PI-B"
          · rw [if_pos hB] at h
            simp only [Except.ok.injEq, Prod.mk.injEq] at h
            obtain ⟨hw, -, -⟩ := h
            rw [← hw]
            have hb : Rect (normalize_xavier
                (randnMat E.rng (idx + ch_out * (ch_in + 1)) ch_out ch_in)
                (ch_out : ℚ)) ch_out ch_in :=
              rect_normalize_xavier _ _ _ _ (rect_randnMat _ _ _ _)
            have hpi : Rect (pseudo_inverse E (normalize_xavier
                (randnMat E.rng (idx + ch_out * (ch_in + 1)) ch_out ch_in)
                (ch_out : ℚ))) ch_in ch_out :=
              pseudo_inverse_rect E hinv _ ch_out ch_in hb ho hch
            exact rect_add_bias _ ch_out ch_in (rect_normalize_xavier _ _ _ _
              (rect_transpose _ ch_in ch_out hpi hch))
          · rw [if_neg hB] at h
            exact absurd h (by simp)

theorem buildLayers_chain (E : NumEnv) (hinv : InvShapePreserving E)
    (learning : String) :
    ∀ (layers : List (Nat × String × Bool)) (ch idx : Nat), 0 < ch →
      (∀ l ∈ layers, 0 < l.1) →
      ∀ (ws bs : List Mat) (us : List Bool) (fs : List ActTag) (idx' : Nat),
        buildLayers E learning ch idx layers = .ok (ws, bs, us, fs, idx') →
        ChainRect (ws.zip fs) ch ((layers.map (fun l => l.1)).getLastD ch) := by
  intro layers
  induction layers with
  | nil =>
    intro ch idx hch _ ws bs us fs idx' h
    simp only [buildLayers] at h
    injection h with h
    simp only [Prod.mk.injEq] at h
    obtain ⟨h1, -, -, h4, -⟩ := h
    rw [← h1, ← h4]
    simp only [List.zip_nil_left, List.map_nil, List.getLastD_nil]
    rfl
  | cons l rest ih =>
    intro ch idx hch hpos ws bs us fs idx' h
    obtain ⟨o, aname, u⟩ := l
    have ho : 0 < o := hpos (o, aname, u) (by simp)
    simp only [buildLayers] at h
    cases hmk : mkLayer E learning ch o idx with
    | error e =>
      rw [hmk, except_bind_error] at h
      exact absurd h (by simp)
    | ok res =>
      obtain ⟨w, bOpt, idx1⟩ := res
      rw [hmk, except_bind_ok] at h
      dsimp only at h
      cases hact : actLookup aname with
      | none =>
        rw [hact, pyLookup_none, except_bind_error] at h
        exact absurd h (by simp)
      | some t =>
        rw [hact, pyLookup_some, except_bind_ok] at h
        cases hrest : buildLayers E learning o idx1 rest with
        | error e =>
          rw [hrest, except_bind_error] at h
          exact absurd h (by simp)
        | ok res' =>
          obtain ⟨ws1, bs1, us1, fs1, idx2⟩ := res'
          rw [hrest, except_bind_ok] at h
          injection h with h
          simp only [Prod.mk.injEq] at h
          obtain ⟨h1, -, -, h4, -⟩ := h
          rw [← h1, ← h4]
          have hw : Rect w o (ch + 1) :=
            mkLayer_shape E hinv learning ch o idx hch ho w bOpt idx1 hmk
          have htail := ih o idx1 ho
            (fun q hq => hpos q (by simp [hq])) ws1 bs1 us1 fs1 idx2 hrest
          simp only [List.zip_cons_cons, List.map_cons, List.getLastD_cons]
          exact ⟨o, ho, hw, htail⟩

theorem batchLists_ne_nil (N bs : Nat) (hN : 0 < N) (hbs : 0 < bs) :
    batchLists N bs ≠ [] := by
  have hpos : 0 < (N + bs - 1) / bs := Nat.div_pos (by omega) hbs
  have hlen : (batchLists N bs).length = (N + bs - 1) / bs := by
    simp [batchLists, batchStarts]
  intro hcon
  rw [hcon] at hlen
  simp at hlen
  omega

theorem buildLayers_ne_nil (E : NumEnv) (learning : String)
    (l0 : Nat × String × Bool) (rest : List (Nat × String × Bool)) (ch idx : Nat)
    (ws bs : List Mat) (us : List Bool) (fs : List ActTag) (idx' : Nat)
    (h : buildLayers E learning ch idx (l0 :: rest) = .ok (ws, bs, us, fs, idx')) :
    ws.zip fs ≠ [] := by
  obtain ⟨o, aname, u⟩ := l0
  simp only [buildLayers] at h
  cases hmk : mkLayer E learning ch o idx with
  | error e =>
    rw [hmk, except_bind_error] at h
    exact absurd h (by simp)
  | ok res =>
    obtain ⟨w, bOpt, idx1⟩ := res
    rw [hmk, except_bind_ok] at h
    dsimp only at h
    cases hact : actLookup aname with
    | none =>
      rw [hact, pyLookup_none, except_bind_error] at h
      exact absurd h (by simp)
    | some t =>
      rw [hact, pyLookup_some, except_bind_ok] at h
      cases hrest : buildLayers E learning o idx1 rest with
      | error e =>
        rw [hrest, except_bind_error] at h
        exact absurd h (by simp)
      | ok res' =>
        obtain ⟨ws1, bs1, us1, fs1, idx2⟩ := res'
        rw [hrest, except_bind_ok] at h
        injection h with h
        simp only [Prod.mk.injEq] at h
        obtain ⟨h1, -, -, h4, -⟩ := h
        rw [← h1, ← h4]
        simp

theorem predict_batches (E : NumEnv) (st : MLPState) (d e : Nat)
    (hchain : ChainRect (st.weights.zip st.funcs) d e)
    (hne : st.weights.zip st.funcs ≠ []) (xst : Mat) (N : Nat)
    (hxst : Rect xst N d) :
    ∀ (bidxs : List (List Nat)),
      (∀ bidx ∈ bidxs, 0 < bidx.length ∧ ∀ j ∈ bidx, j < N) →
      bidxs.mapM (fun bidx =>
          (MLP.forward E st (selectRows xst bidx)).map (fun p => p.2)) =
        .ok (bidxs.map (fun bidx =>
          match MLP.forward E st (selectRows xst bidx) with
          | .ok p => p.2
          | .error _ => [])) ∧
      Rect (bidxs.map (fun bidx =>
          match MLP.forward E st (selectRows xst bidx) with
          | .ok p => p.2
          | .error _ => [])).flatten ((bidxs.map List.length).sum) e := by
  intro bidxs
  induction bidxs with
  | nil =>
    intro _
    exact ⟨rfl, ⟨rfl, by simp⟩⟩
  | cons bidx t ih =>
    intro hall
    obtain ⟨hblen, hblt⟩ := hall bidx (by simp)
    have hsel : Rect (selectRows xst bidx) bidx.length d :=
      selectRows_rect xst N d hxst bidx hblt
    obtain ⟨acts, z, hfwd, hz⟩ := forward_shape E st (selectRows xst bidx)
      bidx.length d e hblen hchain hne hsel
    have hmap : (MLP.forward E st (selectRows xst bidx)).map (fun p => p.2) = .ok z := by
      rw [hfwd]
      rfl
    have hg : (match MLP.forward E st (selectRows xst bidx) with
        | .ok p => p.2
        | .error _ => ([] : Mat)) = z := by
      rw [hfwd]
    have ihh := ih (fun q hq => hall q (by simp [hq]))
    constructor
    · rw [List.mapM_cons, hmap, except_bind_ok, ihh.1, except_bind_ok,
        List.map_cons, hg]
      rfl
    · rw [List.map_cons, hg]
      refine ⟨?_, ?_⟩
      · simp only [List.flatten_cons, List.length_append, List.map_cons,
          List.sum_cons]
        rw [hz.1, ihh.2.1]
      · intro r hr
        rw [List.flatten_cons] at hr
        rcases List.mem_append.mp hr with hcase | hcase
        · exact hz.2 r hcase
        · exact ihh.2.2 r hcase

/-- C8: for every constructed model with a valid topology of input
dimension `D` and final output dimension `C` (the last layer's channel
count), `forward` on a `b × D` batch (`b > 0`) returns a `b × C` matrix,
and `predict` on an `N × D` matrix (`N > 0`, batch size `bs > 0`) returns
an `N × C` matrix equal to the per-batch forward outputs concatenated in
input order. -/
theorem claim_C8_shapes (E : NumEnv) (hinv : InvShapePreserving E)
    (input_dim : Nat) (layers : List (Nat × String × Bool))
    (loss_type learning : String) (idx : Nat) (st : MLPState) (idx1 : Nat)
    (hmk : mkMLP E input_dim layers loss_type learning idx = .ok (st, idx1))
    (hd : 0 < input_dim) (hpos : ∀ l ∈ layers, 0 < l.1) (hlne : layers ≠ [])
    (xs : Mat) (b : Nat) (hxs : Rect xs b input_dim) (hb : 0 < b)
    (xst : Mat) (N : Nat) (hxst : Rect xst N input_dim) (hN : 0 < N)
    (bs : Nat) (hbs : 0 < bs) :
    (MLP.forward E st xs).map (fun r =>
        decide (Rect r.2 b ((layers.map (fun l => l.1)).getLastD input_dim))) =
      .ok true ∧
    (MLP.predict E st xst bs).map (fun p =>
        decide (Rect p N ((layers.map (fun l => l.1)).getLastD input_dim))) =
      .ok true ∧
    MLP.predict E st xst bs = .ok ((batchLists N bs).map (fun bidx =>
        match MLP.forward E st (selectRows xst bidx) with
        | .ok p => p.2
        | .error _ => [])).flatten := by
  unfold mkMLP at hmk
  cases hbl : buildLayers E learning input_dim idx layers with
  | error e =>
    rw [hbl, except_bind_error] at hmk
    exact absurd hmk (by simp)
  | ok res =>
    obtain ⟨ws, bs2, us, fs, idxa⟩ := res
    rw [hbl, except_bind_ok] at hmk
    dsimp only at hmk
    cases hl : lossLookup loss_type with
    | none =>
      rw [hl, pyLookup_none, except_bind_error] at hmk
      exact absurd hmk (by simp)
    | some lt =>
      rw [hl, pyLookup_some, except_bind_ok] at hmk
      injection hmk with hmk
      simp only [Prod.mk.injEq] at hmk
      obtain ⟨h1, -⟩ := hmk
      have hwseq : st.weights = ws := by rw [← h1]
      have hfseq : st.funcs = fs := by rw [← h1]
      have hchain : ChainRect (st.weights.zip st.funcs) input_dim
          ((layers.map (fun l => l.1)).getLastD input_dim) := by
        rw [hwseq, hfseq]
        exact buildLayers_chain E hinv learning layers input_dim idx hd hpos
          ws bs2 us fs idxa hbl
      have hne : st.weights.zip st.funcs ≠ [] := by
        rw [hwseq, hfseq]
        cases layers with
        | nil => exact absurd rfl hlne
        | cons l0 rest =>
          exact buildLayers_ne_nil E learning l0 rest input_dim idx
            ws bs2 us fs idxa hbl
      obtain ⟨acts, z, hf, hz⟩ := forward_shape E st xs b input_dim
        ((layers.map (fun l => l.1)).getLastD input_dim) hb hchain hne hxs
      obtain ⟨hmapM, hrect⟩ := predict_batches E st input_dim
        ((layers.map (fun l => l.1)).getLastD input_dim) hchain hne xst N hxst
        (batchLists N bs)
        (fun bidx hmem => ⟨batchLists_nonempty N bs hbs bidx hmem,
          fun j hj => batchLists_mem_lt N bs hbs bidx hmem j hj⟩)
      have hsum : ((batchLists N bs).map List.length).sum = N := by
        rw [← List.length_flatten, batchLists_flatten bs hbs N, List.length_range]
      rw [hsum] at hrect
      have hLne : batchLists N bs ≠ [] := batchLists_ne_nil N bs hN hbs
      have hie : ((batchLists N bs).map (fun bidx =>
          match MLP.forward E st (selectRows xst bidx) with
          | .ok p => p.2
          | .error _ => ([] : Mat))).isEmpty = false := by
        cases hc : batchLists N bs with
        | nil => exact absurd hc hLne
        | cons a t => rfl
      have hpred : MLP.predict E st xst bs = .ok ((batchLists N bs).map (fun bidx =>
          match MLP.forward E st (selectRows xst bidx) with
          | .ok p => p.2
          | .error _ => [])).flatten := by
        unfold MLP.predict
        rw [if_neg (by omega : ¬ bs = 0), hxst.1, hmapM]
        dsimp only
        rw [hie, if_neg (by simp)]
      refine ⟨?_, ?_, hpred⟩
      · rw [hf]
        exact congrArg Except.ok (decide_eq_true hz)
      · rw [hpred]
        exact congrArg Except.ok (decide_eq_true hrect)

/-- Witness for C8 on the concrete BP model with one identity layer
(`1 → 1`, weights `[[2, 4]]`), a `1 × 1` forward batch and a `2 × 1`
prediction input split into batches of one row. -/
theorem claim_C8_witness :
    (MLP.forward E0 stBP0 [[1]]).map (fun r => decide (Rect r.2 1 1)) = .ok true ∧
    (MLP.predict E0 stBP0 [[1], [2]] 1).map (fun p => decide (Rect p 2 1)) = .ok true ∧
    MLP.predict E0 stBP0 [[1], [2]] 1 = .ok ((batchLists 2 1).map (fun bidx =>
        match MLP.forward E0 stBP0 (selectRows [[1], [2]] bidx) with
        | .ok p => p.2
        | .error _ => [])).flatten :=
  claim_C8_shapes E0 (fun _ _ _ h => h) 1 [(1, "identity", true)] "mse" "BP" 0
    stBP0 2 (by with_unfolding_all rfl) (by decide) (by decide) (by decide)
    [[1]] 1 (by decide) (by decide) [[1], [2]] 2 (by decide) (by decide)
    1 (by decide)
